import Mathlib

/-!
# BoxKV storage core: shallow embedding and verification

This file embeds the storage core of the BoxKV key-value store in Lean 4:
the varint / block-handle / footer codec of the SSTable format layer
(`src/server/crates/boxkv-core/src/sstable/format.rs`), the WAL record
writer and streaming reader (`wal/writer.rs`, `wal/reader.rs`), the WAL
recovery driver (`wal.rs`), and the memtable (`memtable.rs`), together
with theorems about the properties claimed in the specification.

Modelling conventions:
* Rust byte buffers (`Bytes`, `Vec<u8>`, slices) are `List Nat`; where a
  property needs real bytes the hypothesis `b < 256` is carried.
* Machine integers (`u64`, `usize`) are `Nat` with explicit reduction
  `% 2^64` at the points where the Rust code can wrap.
* File I/O is replaced by explicit byte streams: reading consumes a prefix
  of a `List Nat`, end of stream is end of file.
-/

set_option maxRecDepth 40000

/-- `2^64`, the modulus of `u64` / 64-bit `usize` arithmetic. -/
def U64_MOD : Nat := 2 ^ 64

/-- `2^63` bound under which all size arithmetic in the code is exact. -/
def I64_BOUND : Nat := 2 ^ 63

/-! ## Big-endian integer serialization (`u64::to_be_bytes` and friends) -/

/-- `toBeBytes w v` is `v` serialized as `w` big-endian bytes, the model of
`u32::to_be_bytes` (`w = 4`) and `u64::to_be_bytes` (`w = 8`). -/
def toBeBytes : Nat → Nat → List Nat
  | 0, _ => []
  | w + 1, v => toBeBytes w (v / 256) ++ [v % 256]

/-- `fromBeBytes l` reads a big-endian integer back from its bytes, the model
of `u32::from_be_bytes` / `u64::from_be_bytes`. -/
def fromBeBytes (l : List Nat) : Nat :=
  l.foldl (fun acc b => acc * 256 + b) 0

theorem toBeBytes_length (w v : Nat) : (toBeBytes w v).length = w := by
  induction w generalizing v with
  | zero => rfl
  | succ w ih => simp [toBeBytes, ih]

theorem toBeBytes_lt_256 (w v : Nat) : ∀ b ∈ toBeBytes w v, b < 256 := by
  induction w generalizing v with
  | zero => simp [toBeBytes]
  | succ w ih =>
    intro b hb
    simp only [toBeBytes, List.mem_append, List.mem_singleton] at hb
    rcases hb with h | h
    · exact ih _ _ h
    · subst h; exact Nat.mod_lt _ (by omega)

theorem fromBeBytes_append_singleton (l : List Nat) (b : Nat) :
    fromBeBytes (l ++ [b]) = fromBeBytes l * 256 + b := by
  simp [fromBeBytes, List.foldl_append]

theorem fromBeBytes_toBeBytes (w v : Nat) :
    fromBeBytes (toBeBytes w v) = v % 256 ^ w := by
  induction w generalizing v with
  | zero => simp [toBeBytes, fromBeBytes, Nat.mod_one]
  | succ w ih =>
    rw [toBeBytes, fromBeBytes_append_singleton, ih]
    have h256 : (256:Nat) ^ (w+1) = 256 * 256 ^ w := by ring
    rw [h256, Nat.mod_mul]
    ring

/-- Round-trip of big-endian serialization for values in range. -/
theorem fromBeBytes_toBeBytes_of_lt {w v : Nat} (h : v < 256 ^ w) :
    fromBeBytes (toBeBytes w v) = v := by
  rw [fromBeBytes_toBeBytes, Nat.mod_eq_of_lt h]

/-! ## CRC32 (IEEE), the model of the `crc32fast::Hasher`

Standard reflected CRC-32 with polynomial `0xEDB88320`, initial value
`0xFFFFFFFF` and final xor `0xFFFFFFFF` (checked below against the
canonical check value `crc32("123456789") = 0xCBF43926`). -/

/-- One bit-step of the reflected CRC-32 computation. -/
def crc32Round (crc : Nat) : Nat :=
  if crc &&& 1 = 1 then (crc >>> 1) ^^^ 0xEDB88320 else crc >>> 1

/-- `Hasher::update` for a single input byte: xor the byte in, then run
eight bit-steps. -/
def crc32UpdateByte (crc b : Nat) : Nat :=
  crc32Round (crc32Round (crc32Round (crc32Round
    (crc32Round (crc32Round (crc32Round (crc32Round (crc ^^^ b))))))))

/-- `Hasher::new` + `update(data)` + `finalize()`. -/
def crc32 (data : List Nat) : Nat :=
  0xFFFFFFFF ^^^ data.foldl crc32UpdateByte 0xFFFFFFFF

theorem crc32Round_lt (crc : Nat) (h : crc < 2 ^ 32) : crc32Round crc < 2 ^ 32 := by
  unfold crc32Round
  have h1 : crc >>> 1 < 2 ^ 32 := by
    rw [Nat.shiftRight_succ, Nat.shiftRight_zero]
    omega
  split
  · exact Nat.xor_lt_two_pow h1 (by norm_num)
  · exact h1

theorem crc32UpdateByte_lt (crc b : Nat) (hc : crc < 2 ^ 32) (hb : b < 256) :
    crc32UpdateByte crc b < 2 ^ 32 := by
  have h0 : crc ^^^ b < 2 ^ 32 := Nat.xor_lt_two_pow hc (by omega)
  unfold crc32UpdateByte
  exact crc32Round_lt _ (crc32Round_lt _ (crc32Round_lt _ (crc32Round_lt _
    (crc32Round_lt _ (crc32Round_lt _ (crc32Round_lt _ (crc32Round_lt _ h0)))))))

/-- The CRC of a byte string fits in a `u32`. -/
theorem crc32_lt (data : List Nat) (h : ∀ b ∈ data, b < 256) :
    crc32 data < 2 ^ 32 := by
  unfold crc32
  have : ∀ (l : List Nat) (crc : Nat), (∀ b ∈ l, b < 256) → crc < 2 ^ 32 →
      l.foldl crc32UpdateByte crc < 2 ^ 32 := by
    intro l
    induction l with
    | nil => intro crc _ hc; simpa using hc
    | cons x xs ih =>
      intro crc hl hc
      simp only [List.foldl_cons]
      exact ih _ (fun b hb => hl b (List.mem_cons_of_mem _ hb))
        (crc32UpdateByte_lt _ _ hc (hl x (List.mem_cons_self _ _)))
  exact Nat.xor_lt_two_pow (by norm_num) (this data 0xFFFFFFFF h (by norm_num))

/-! ## Data model (`boxkv-common/src/types.rs`) -/

/-- Type tag of `ValueType::Normal` (`NORMAL_VALUE_TYPE`). -/
def NORMAL_VALUE_TYPE : Nat := 0

/-- Type tag of `ValueType::Tombstone` (`TOMBSTONE_VALUE_TYPE`). -/
def TOMBSTONE_VALUE_TYPE : Nat := 1

/-- Type tag of `ValueType::Expiring` (`EXPIRING_VALUE_TYPE`). -/
def EXPIRING_VALUE_TYPE : Nat := 2

/-- The `ValueType` enum: normal value bytes, tombstone, or expiring value
with a unix-seconds timestamp. -/
inductive ValueType where
  | Normal (data : List Nat)
  | Tombstone
  | Expiring (data : List Nat) (expire_at : Nat)
deriving DecidableEq, Repr

namespace ValueType

/-- `ValueType::type_tag`. -/
def type_tag : ValueType → Nat
  | Normal _ => NORMAL_VALUE_TYPE
  | Tombstone => TOMBSTONE_VALUE_TYPE
  | Expiring _ _ => EXPIRING_VALUE_TYPE

/-- `ValueType::data_len`: length of the user data. -/
def data_len : ValueType → Nat
  | Normal bytes => bytes.length
  | Tombstone => 0
  | Expiring data _ => data.length

/-- `ValueType::meta_len`: 8 for `Expiring` (the `expire_at` stamp), else 0. -/
def meta_len : ValueType → Nat
  | Normal _ => 0
  | Tombstone => 0
  | Expiring _ _ => 8

/-- `ValueType::serialized_len = data_len + meta_len`. -/
def serialized_len (v : ValueType) : Nat :=
  v.data_len + v.meta_len

/-- `ValueType::is_tombstone`. -/
def is_tombstone : ValueType → Bool
  | Tombstone => true
  | _ => false

end ValueType

/-- The `Entry` struct: a versioned record `(key, value-variant, seq)`. -/
structure Entry where
  key : List Nat
  val : ValueType
  seq : Nat
deriving DecidableEq, Repr

namespace Entry

/-- `Entry::new_normal`. -/
def new_normal (seq : Nat) (key val : List Nat) : Entry :=
  ⟨key, .Normal val, seq⟩

/-- `Entry::new_tombstone`. -/
def new_tombstone (seq : Nat) (key : List Nat) : Entry :=
  ⟨key, .Tombstone, seq⟩

/-- `Entry::new_expiring`. -/
def new_expiring (seq : Nat) (key val : List Nat) (expire_at : Nat) : Entry :=
  ⟨key, .Expiring val expire_at, seq⟩

end Entry

/-! ## SSTable format layer (`boxkv-core/src/sstable/format.rs`) -/

/-- Modelled from the spec: the `SSTableError` sum type of the `sstable`
module (the module root that declares it is not part of the provided
sources; §7 of the spec lists the variants used by the format layer:
`Decode(msg)` for varint/footer decode errors and `Corrupted(msg)` for
structural invariant violations). -/
inductive SSTableError where
  | Decode (msg : String)
  | Corrupted (msg : String)
deriving DecidableEq, Repr

/-- Modelled from the spec: `FOOTER_SIZE` from the missing `sstable` module
root — "fixed on-disk footer of exactly 48 bytes". -/
def FOOTER_SIZE : Nat := 48

/-- Modelled from the spec: `MAGIC_SIZE` from the missing `sstable` module
root — the magic number occupies the last 8 bytes of the footer. -/
def MAGIC_SIZE : Nat := 8

/-- Modelled from the spec: the `MAGIC` constant from the missing `sstable`
module root — "a fixed 64-bit value distinguishing this file format
(choose e.g. `0xB0_0C_C0_FF_EE_00_00_01`)". The theorems below depend only
on it being a fixed `u64` value. -/
def MAGIC : Nat := 0xB00CC0FFEE000001

namespace varint

/-- Loop body of `varint::encode`: while `v >= 0x80` push `(v as u8) | 0x80`
and shift `v` right by 7; finally push `v`. The `fuel` argument only makes
the recursion structural; `fuel > v` suffices because `v` strictly
decreases through `v >>= 7`. -/
def encodeAux : Nat → Nat → List Nat
  | 0, _ => []
  | fuel + 1, v =>
    if v < 128 then [v]
    else (v % 256 ||| 128) :: encodeAux fuel (v / 128)

/-- `varint::encode` (the buffer-append is modelled as returning the list of
pushed bytes). -/
def encode (v : Nat) : List Nat := encodeAux (v + 1) v

/-- `varint::encoded_size`'s `64 - value.leading_zeros()` for a `u64`:
the number of significant bits, computed with 64 fuel like the hardware
count. -/
def bitLenAux : Nat → Nat → Nat
  | 0, _ => 0
  | fuel + 1, v => if v = 0 then 0 else bitLenAux fuel (v / 2) + 1

/-- Significant-bit count of a `u64` value. -/
def bit_len (v : Nat) : Nat := bitLenAux 64 v

/-- `varint::encoded_size`. -/
def encoded_size (v : Nat) : Nat :=
  if bit_len v = 0 then 1 else (bit_len v + 6) / 7

/-- Loop of `varint::decode`: iterate over the input with byte index `i` and
shift amount `shift`, accumulating into `result` exactly as the `u64`
register does (`|`, with the shifted byte truncated to 64 bits). -/
def decodeAux : List Nat → Nat → Nat → Nat → Except SSTableError (Nat × Nat)
  | [], _, _, _ =>
    .error (.Decode "incomplete varint: expected more bytes")
  | b :: rest, i, shift, result =>
    if 64 ≤ shift then
      .error (.Decode "varint too long: exceeds 64 bits")
    else
      let result' := result ||| ((b &&& 0x7F) <<< shift) % U64_MOD
      if b &&& 0x80 = 0 then .ok (result', i + 1)
      else decodeAux rest (i + 1) (shift + 7) result'

/-- `varint::decode`. -/
def decode (data : List Nat) : Except SSTableError (Nat × Nat) :=
  if data.isEmpty then .error (.Decode "empty varint data")
  else decodeAux data 0 0 0

end varint

/-! ### Arithmetic facts about varint bytes -/

theorem contByte_and_127 (v : Nat) : (v % 256 ||| 128) &&& 127 = v % 128 := by
  have h : ∀ w, w < 256 → (w ||| 128) &&& 127 = w % 128 := by decide
  rw [h (v % 256) (Nat.mod_lt _ (by omega))]
  exact Nat.mod_mod_of_dvd v (by norm_num)

theorem contByte_and_128 (v : Nat) : (v % 256 ||| 128) &&& 128 = 128 := by
  have h : ∀ w, w < 256 → (w ||| 128) &&& 128 = 128 := by decide
  exact h (v % 256) (Nat.mod_lt _ (by omega))

theorem lastByte_and_127 {v : Nat} (h : v < 128) : v &&& 127 = v := by
  have h' : ∀ w, w < 128 → w &&& 127 = w := by decide
  exact h' v h

theorem lastByte_and_128 {v : Nat} (h : v < 128) : v &&& 128 = 0 := by
  have h' : ∀ w, w < 128 → w &&& 128 = 0 := by decide
  exact h' v h

/-- Bitwise-or of disjoint parts is addition: `r ||| (x <<< s) = r + x * 2^s`
whenever `r` fits below bit `s`. -/
theorem lor_shiftLeft_eq_add (x : Nat) :
    ∀ (s r : Nat), r < 2 ^ s → r ||| x <<< s = r + x * 2 ^ s := by
  intro s
  induction s generalizing x with
  | zero =>
    intro r hr
    interval_cases r
    simp [Nat.shiftLeft_eq]
  | succ s ih =>
    intro r hr
    have hdecomp : Nat.bit (r.testBit 0) (r >>> 1) = r :=
      Nat.bit_testBit_zero_shiftRight_one r
    have hx : x <<< (s + 1) = Nat.bit false (x <<< s) := by
      simp [Nat.bit, Nat.shiftLeft_eq, Nat.pow_succ]
      ring
    have hr' : r >>> 1 < 2 ^ s := by
      rw [Nat.shiftRight_succ, Nat.shiftRight_zero]
      rw [Nat.pow_succ] at hr
      omega
    calc r ||| x <<< (s + 1)
        = Nat.bit (r.testBit 0) (r >>> 1) ||| Nat.bit false (x <<< s) := by
          rw [hdecomp, hx]
      _ = Nat.bit (r.testBit 0 || false) (r >>> 1 ||| x <<< s) := Nat.lor_bit _ _ _ _
      _ = Nat.bit (r.testBit 0) (r >>> 1 + x * 2 ^ s) := by rw [Bool.or_false, ih x _ hr']
      _ = r + x * 2 ^ (s + 1) := by
          rw [Nat.bit_val]
          have : 2 * (r >>> 1) + (r.testBit 0).toNat = r := by
            rw [← Nat.bit_val, hdecomp]
          rw [Nat.pow_succ]
          have h2 : x * (2 ^ s * 2) = 2 * (x * 2 ^ s) := by ring
          omega

/-! ### Varint codec correctness -/

namespace varint

theorem encodeAux_congr :
    ∀ (v f1 f2 : Nat), v < f1 → v < f2 → encodeAux f1 v = encodeAux f2 v := by
  intro v
  induction v using Nat.strong_induction_on with
  | _ v ih =>
    intro f1 f2 h1 h2
    match f1, f2 with
    | a + 1, b + 1 =>
      simp only [encodeAux]
      split
      · rfl
      · rename_i hv
        have hlt : v / 128 < v := Nat.div_lt_self (by omega) (by omega)
        rw [ih (v / 128) hlt a b (by omega) (by omega)]

/-- Unfolding equation of `varint::encode`, matching the loop in the source. -/
theorem encode_unfold (v : Nat) :
    encode v = if v < 128 then [v] else (v % 256 ||| 128) :: encode (v / 128) := by
  show encodeAux (v + 1) v = _
  simp only [encodeAux]
  split
  · rfl
  · rename_i hv
    have hlt : v / 128 < v := Nat.div_lt_self (by omega) (by omega)
    rw [encodeAux_congr (v / 128) v (v / 128 + 1) hlt (by omega)]
    rfl

theorem encode_ne_nil (v : Nat) : encode v ≠ [] := by
  rw [encode_unfold]
  split <;> simp

/-- `bitLenAux fuel v` is the least `k` with `v < 2^k`, for any `v < 2^fuel`. -/
theorem bitLenAux_spec :
    ∀ (fuel v : Nat), v < 2 ^ fuel →
      v < 2 ^ bitLenAux fuel v ∧ (∀ k, v < 2 ^ k → bitLenAux fuel v ≤ k) := by
  intro fuel
  induction fuel with
  | zero =>
    intro v hv
    simp only [pow_zero] at hv
    interval_cases v
    exact ⟨by norm_num [bitLenAux], fun k _ => by simp [bitLenAux]⟩
  | succ fuel ih =>
    intro v hv
    by_cases hz : v = 0
    · subst hz
      exact ⟨by norm_num [bitLenAux], fun k _ => by simp [bitLenAux]⟩
    · have hstep : bitLenAux (fuel + 1) v = bitLenAux fuel (v / 2) + 1 := by
        simp [bitLenAux, hz]
      have hv2 : v / 2 < 2 ^ fuel := by
        rw [Nat.pow_succ] at hv
        omega
      obtain ⟨hlt, hmin⟩ := ih (v / 2) hv2
      constructor
      · rw [hstep, Nat.pow_succ]
        omega
      · intro k hk
        have hk1 : 1 ≤ k := by
          by_contra h
          have hk0 : k = 0 := by omega
          subst hk0
          simp only [pow_zero] at hk
          omega
        have : v / 2 < 2 ^ (k - 1) := by
          have : (2:Nat) ^ k = 2 ^ (k - 1) * 2 := by
            rw [← Nat.pow_succ]
            congr 1
            omega
          omega
        have := hmin (k - 1) this
        omega

theorem bit_len_spec {v : Nat} (hv : v < 2 ^ 64) :
    v < 2 ^ bit_len v ∧ (∀ k, v < 2 ^ k → bit_len v ≤ k) :=
  bitLenAux_spec 64 v hv

/-- `bit_len (v >> 7) = bit_len v - 7` for `v ≥ 128`. -/
theorem bit_len_div_128 {v : Nat} (hv : v < 2 ^ 64) (h128 : 128 ≤ v) :
    bit_len (v / 128) = bit_len v - 7 ∧ 8 ≤ bit_len v := by
  obtain ⟨ha, hamin⟩ := bit_len_spec hv
  have hv' : v / 128 < 2 ^ 64 := by omega
  obtain ⟨hb, hbmin⟩ := bit_len_spec hv'
  have h8 : 8 ≤ bit_len v := by
    by_contra h
    have : bit_len v ≤ 7 := by omega
    have : (2:Nat) ^ bit_len v ≤ 2 ^ 7 := Nat.pow_le_pow_right (by norm_num) this
    omega
  refine ⟨?_, h8⟩
  have hble : bit_len (v / 128) ≤ bit_len v - 7 := by
    apply hbmin
    have : (2:Nat) ^ bit_len v = 2 ^ (bit_len v - 7) * 128 := by
      rw [show (128:Nat) = 2 ^ 7 by norm_num, ← Nat.pow_add]
      congr 1
      omega
    omega
  have hage : bit_len v ≤ bit_len (v / 128) + 7 := by
    apply hamin
    have hvlt : v < (v / 128 + 1) * 128 := by
      have := Nat.div_add_mod v 128
      omega
    have : (v / 128 + 1) * 128 ≤ 2 ^ (bit_len (v / 128)) * 128 := by
      have : v / 128 + 1 ≤ 2 ^ bit_len (v / 128) := hb
      exact Nat.mul_le_mul_right _ this
    rw [Nat.pow_add]
    norm_num
    omega
  omega

theorem encoded_size_small {v : Nat} (h : v < 128) : encoded_size v = 1 := by
  unfold encoded_size
  by_cases hz : bit_len v = 0
  · simp [hz]
  · have hv64 : v < 2 ^ 64 := by omega
    obtain ⟨_, hmin⟩ := bit_len_spec hv64
    have : bit_len v ≤ 7 := hmin 7 (by omega)
    rw [if_neg hz]
    omega

theorem encoded_size_step {v : Nat} (hv : v < 2 ^ 64) (h128 : 128 ≤ v) :
    encoded_size v = encoded_size (v / 128) + 1 := by
  obtain ⟨hdiv, h8⟩ := bit_len_div_128 hv h128
  unfold encoded_size
  rw [hdiv]
  have hz1 : bit_len v ≠ 0 := by omega
  have hz2 : bit_len v - 7 ≠ 0 := by
    intro h
    have : bit_len v ≤ 7 := by omega
    omega
  rw [if_neg hz1, if_neg hz2]
  omega

/-- `encoded_size(v)` equals the number of bytes `encode(v)` produces. -/
theorem length_encode {v : Nat} (hv : v < 2 ^ 64) :
    (encode v).length = encoded_size v := by
  induction v using Nat.strong_induction_on with
  | _ v ih =>
    rw [encode_unfold]
    by_cases h : v < 128
    · rw [if_pos h, encoded_size_small h]
      rfl
    · rw [if_neg h, encoded_size_step hv (by omega)]
      have hlt : v / 128 < v := Nat.div_lt_self (by omega) (by omega)
      simp only [List.length_cons]
      rw [ih (v / 128) hlt (by omega)]

end varint

namespace varint

theorem lor_mul_pow_eq_add (x s r : Nat) (h : r < 2 ^ s) :
    r ||| x * 2 ^ s = r + x * 2 ^ s := by
  have h2 := lor_shiftLeft_eq_add x s r h
  rwa [Nat.shiftLeft_eq] at h2

/-- Main decode/encode agreement: running the decode loop over
`encode v ++ rest` from any accumulator state consumes exactly the encoded
bytes and adds `v`'s bits above the current shift. -/
theorem decodeAux_encode (v : Nat) :
    ∀ (rest : List Nat) (i shift result : Nat),
      shift + bit_len v ≤ 64 → shift < 64 → result < 2 ^ shift → v < 2 ^ 64 →
      decodeAux (encode v ++ rest) i shift result =
        .ok (result + v * 2 ^ shift, i + (encode v).length) := by
  induction v using Nat.strong_induction_on with
  | _ v ih =>
    intro rest i shift result hbits hshift hres hv64
    have hpow7 : (2:Nat) ^ (shift + 7) = 2 ^ shift * 128 := by
      rw [Nat.pow_add]
    by_cases h : v < 128
    · rw [encode_unfold, if_pos h]
      have hsize : v * 2 ^ shift < U64_MOD := by
        obtain ⟨hlt, _⟩ := bit_len_spec hv64
        have h2 : (2:Nat) ^ bit_len v * 2 ^ shift = 2 ^ (bit_len v + shift) := by
          rw [Nat.pow_add]
        have h3 : (2:Nat) ^ (bit_len v + shift) ≤ 2 ^ 64 :=
          Nat.pow_le_pow_right (by norm_num) (by omega)
        have h4 : v * 2 ^ shift < 2 ^ bit_len v * 2 ^ shift := by
          have hp : (0:Nat) < 2 ^ shift := Nat.pos_pow_of_pos _ (by norm_num)
          exact Nat.mul_lt_mul_of_pos_right hlt hp
        show v * 2 ^ shift < 2 ^ 64
        omega
      simp only [List.cons_append, List.nil_append, decodeAux]
      rw [if_neg (show ¬ 64 ≤ shift by omega)]
      rw [lastByte_and_127 h]
      rw [if_pos (lastByte_and_128 h)]
      rw [Nat.shiftLeft_eq, Nat.mod_eq_of_lt hsize,
        lor_mul_pow_eq_add v shift result hres]
      rfl
    · rw [encode_unfold, if_neg h]
      obtain ⟨hdd, h8⟩ := bit_len_div_128 hv64 (by omega)
      have hs7 : shift + 7 < 64 := by omega
      have hp : (0:Nat) < 2 ^ shift := Nat.pos_pow_of_pos _ (by norm_num)
      have hm127 : v % 128 * 2 ^ shift ≤ 127 * 2 ^ shift :=
        Nat.mul_le_mul_right _ (by omega)
      have hmod : v % 128 * 2 ^ shift < U64_MOD := by
        have h3 : (2:Nat) ^ (shift + 7) ≤ 2 ^ 64 :=
          Nat.pow_le_pow_right (by norm_num) (by omega)
        show v % 128 * 2 ^ shift < 2 ^ 64
        omega
      simp only [List.cons_append, decodeAux]
      rw [if_neg (show ¬ 64 ≤ shift by omega)]
      rw [contByte_and_127]
      rw [if_neg (show ¬ (v % 256 ||| 128) &&& 128 = 0 by rw [contByte_and_128]; omega)]
      rw [Nat.shiftLeft_eq, Nat.mod_eq_of_lt hmod,
        lor_mul_pow_eq_add (v % 128) shift result hres]
      have hres7 : result + v % 128 * 2 ^ shift < 2 ^ (shift + 7) := by omega
      have hlt : v / 128 < v := Nat.div_lt_self (by omega) (by omega)
      rw [List.append_eq]
      rw [ih (v / 128) hlt rest (i + 1) (shift + 7) _ (by omega) hs7 hres7 (by omega)]
      congr 1
      rw [Prod.mk.injEq]
      refine ⟨?_, ?_⟩
      · calc result + v % 128 * 2 ^ shift + v / 128 * 2 ^ (shift + 7)
            = result + (v % 128 + 128 * (v / 128)) * 2 ^ shift := by rw [hpow7]; ring
          _ = result + v * 2 ^ shift := by rw [Nat.mod_add_div]
      · simp only [List.length_cons]
        omega

/-- `decode ∘ encode = id` for `u64` values, together with the consumed-byte
count equalling `encoded_size`. -/
theorem decode_encode {v : Nat} (hv : v < 2 ^ 64) :
    decode (encode v) = .ok (v, encoded_size v) := by
  have hne := encode_ne_nil v
  unfold decode
  rw [if_neg (by simpa [List.isEmpty_iff] using hne)]
  have hd := decodeAux_encode v [] 0 0 0
    (by simpa using (bit_len_spec hv).2 64 hv) (by norm_num) (by norm_num) hv
  rw [List.append_nil] at hd
  rw [hd, length_encode hv]
  norm_num

end varint

namespace varint

theorem encoded_size_le_10 {v : Nat} (hv : v < 2 ^ 64) : encoded_size v ≤ 10 := by
  have hle : bit_len v ≤ 64 := (bit_len_spec hv).2 64 hv
  unfold encoded_size
  split
  · omega
  · omega

theorem encoded_size_pos (v : Nat) : 1 ≤ encoded_size v := by
  unfold encoded_size
  split
  · omega
  · rename_i h
    omega

/-- `decode` run on an encoded value followed by arbitrary extra bytes
consumes exactly the encoding. -/
theorem decode_encode_append {v : Nat} (hv : v < 2 ^ 64) (rest : List Nat) :
    decode (encode v ++ rest) = .ok (v, encoded_size v) := by
  unfold decode
  rw [if_neg (by
    simp only [List.isEmpty_iff, List.append_eq_nil]
    intro hcon
    exact encode_ne_nil v hcon.1)]
  have hd := decodeAux_encode v rest 0 0 0
    (by simpa using (bit_len_spec hv).2 64 hv) (by norm_num) (by norm_num) hv
  rw [hd, length_encode hv]
  norm_num

end varint

/-- The `BlockHandle` struct: `(offset, size)` byte range in an SSTable. -/
structure BlockHandle where
  offset : Nat
  size : Nat
deriving DecidableEq, Repr

namespace BlockHandle

/-- `BlockHandle::new`. -/
def new (offset size : Nat) : BlockHandle := ⟨offset, size⟩

/-- `BlockHandle::encode`: offset varint followed by size varint. -/
def encode (h : BlockHandle) : List Nat :=
  varint.encode h.offset ++ varint.encode h.size

/-- `BlockHandle::encoded_size`. -/
def encoded_size (h : BlockHandle) : Nat :=
  varint.encoded_size h.offset + varint.encoded_size h.size

/-- `BlockHandle::decode`. -/
def decode (data : List Nat) : Except SSTableError (BlockHandle × Nat) :=
  match varint.decode data with
  | .error e => .error e
  | .ok (offset, offset_read) =>
    match varint.decode (data.drop offset_read) with
    | .error e => .error e
    | .ok (size, size_read) => .ok (⟨offset, size⟩, offset_read + size_read)

/-- A `BlockHandle` in `u64` range: both fields below `2^64`. -/
def Wf (h : BlockHandle) : Prop := h.offset < 2 ^ 64 ∧ h.size < 2 ^ 64

instance : DecidablePred Wf := fun h => by unfold Wf; infer_instance

theorem handle_length_encode {h : BlockHandle} (hw : h.Wf) :
    h.encode.length = h.encoded_size := by
  unfold encode encoded_size
  rw [List.length_append, varint.length_encode hw.1, varint.length_encode hw.2]

theorem handle_decode_encode_append {h : BlockHandle} (hw : h.Wf) (rest : List Nat) :
    decode (h.encode ++ rest) = .ok (h, h.encoded_size) := by
  unfold decode encode
  rw [List.append_assoc, varint.decode_encode_append hw.1]
  dsimp only
  have hdrop : ((varint.encode h.offset ++ (varint.encode h.size ++ rest)).drop
      (varint.encoded_size h.offset)) = varint.encode h.size ++ rest :=
    List.drop_left' (varint.length_encode hw.1)
  rw [hdrop, varint.decode_encode_append hw.2]
  rfl

end BlockHandle

/-- The `Footer` struct: two block handles plus the magic number. -/
structure Footer where
  meta_index_handle : BlockHandle
  index_handle : BlockHandle
  magic : Nat
deriving DecidableEq, Repr

namespace Footer

/-- `Footer::new`: magic is set to the format's `MAGIC` constant. -/
def new (meta_index index : BlockHandle) : Footer :=
  ⟨meta_index, index, MAGIC⟩

/-- `Footer::encode`: the method fills the caller's 48-byte buffer with the
meta-index handle, the index handle, zero padding, and the big-endian
`MAGIC` constant; the four `split_at_mut` regions cover the whole buffer,
so the buffer's final contents are their concatenation. Note the source
writes the `MAGIC` constant, not `self.magic`. -/
def encode (f : Footer) : List Nat :=
  f.meta_index_handle.encode ++ f.index_handle.encode
    ++ List.replicate
        (FOOTER_SIZE - (f.meta_index_handle.encoded_size + f.index_handle.encoded_size + MAGIC_SIZE))
        0
    ++ toBeBytes 8 MAGIC

/-- `Footer::decode`: parse the two handles from the front and read the
big-endian magic from the last `MAGIC_SIZE` bytes of the 48-byte footer
(the `try_into` length check is the `if`). -/
def decode (data : List Nat) : Except SSTableError Footer :=
  match BlockHandle.decode data with
  | .error e => .error e
  | .ok (meta_index_handle, meta_read) =>
    match BlockHandle.decode (data.drop meta_read) with
    | .error e => .error e
    | .ok (index_handle, _index_read) =>
      if (data.drop (FOOTER_SIZE - MAGIC_SIZE)).length = MAGIC_SIZE then
        .ok ⟨meta_index_handle, index_handle,
          fromBeBytes (data.drop (FOOTER_SIZE - MAGIC_SIZE))⟩
      else .error (.Corrupted "invalid footer magic size")

/-- `Footer::validate_magic`. -/
def validate_magic (f : Footer) : Bool := f.magic == MAGIC

end Footer

namespace Footer

/-- Both handles of a footer are in `u64` range. -/
def HandlesWf (m i : BlockHandle) : Prop := m.Wf ∧ i.Wf

theorem handle_sizes_le {m i : BlockHandle} (hw : HandlesWf m i) :
    m.encoded_size + i.encoded_size + MAGIC_SIZE ≤ FOOTER_SIZE := by
  obtain ⟨⟨hm1, hm2⟩, ⟨hi1, hi2⟩⟩ := hw
  have h1 := varint.encoded_size_le_10 hm1
  have h2 := varint.encoded_size_le_10 hm2
  have h3 := varint.encoded_size_le_10 hi1
  have h4 := varint.encoded_size_le_10 hi2
  unfold BlockHandle.encoded_size MAGIC_SIZE FOOTER_SIZE
  omega

/-- The encoded footer is exactly `FOOTER_SIZE = 48` bytes. -/
theorem footer_length_encode {m i : BlockHandle} (hw : HandlesWf m i) :
    (encode (new m i)).length = FOOTER_SIZE := by
  have hle := handle_sizes_le hw
  unfold encode new
  simp only [List.length_append, List.length_replicate, toBeBytes_length,
    BlockHandle.handle_length_encode hw.1, BlockHandle.handle_length_encode hw.2]
  unfold MAGIC_SIZE FOOTER_SIZE at hle ⊢
  omega

/-- Everything before the magic occupies exactly the first 40 bytes. -/
theorem length_front {m i : BlockHandle} (hw : HandlesWf m i) :
    ((new m i).meta_index_handle.encode ++ (new m i).index_handle.encode
      ++ List.replicate
          (FOOTER_SIZE - ((new m i).meta_index_handle.encoded_size
            + (new m i).index_handle.encoded_size + MAGIC_SIZE)) 0).length
      = FOOTER_SIZE - MAGIC_SIZE := by
  have hle := handle_sizes_le hw
  unfold new at hle ⊢
  simp only [List.length_append, List.length_replicate,
    BlockHandle.handle_length_encode hw.1, BlockHandle.handle_length_encode hw.2]
  unfold MAGIC_SIZE FOOTER_SIZE at hle ⊢
  omega

/-- The magic constant occupies bytes `[40..48]` of the encoded footer. -/
theorem encode_drop_40 {m i : BlockHandle} (hw : HandlesWf m i) :
    (encode (new m i)).drop (FOOTER_SIZE - MAGIC_SIZE) = toBeBytes 8 MAGIC := by
  unfold encode
  rw [List.append_assoc, List.append_assoc, ← List.append_assoc, ← List.append_assoc]
  exact List.drop_left' (length_front hw)

/-- Decoding an encoded footer recovers the handles and the `MAGIC` value. -/
theorem footer_decode_encode {m i : BlockHandle} (hw : HandlesWf m i) :
    decode (encode (new m i)) = .ok (new m i) := by
  have hle := handle_sizes_le hw
  have hmagic8 : (MAGIC : Nat) < 256 ^ 8 := by norm_num [MAGIC]
  unfold decode
  have henc : encode (new m i) = m.encode ++ (i.encode
      ++ (List.replicate (FOOTER_SIZE - (m.encoded_size + i.encoded_size + MAGIC_SIZE)) 0
        ++ toBeBytes 8 MAGIC)) := by
    unfold encode new
    simp only [List.append_assoc]
  rw [henc, BlockHandle.handle_decode_encode_append hw.1]
  dsimp only
  rw [List.drop_left' (BlockHandle.handle_length_encode hw.1),
    BlockHandle.handle_decode_encode_append hw.2]
  dsimp only
  rw [← henc]
  rw [encode_drop_40 hw]
  rw [if_pos (by rw [toBeBytes_length]; rfl)]
  rw [fromBeBytes_toBeBytes_of_lt hmagic8]
  rfl

end Footer

/-! ## Write-Ahead Log (`boxkv-core/src/wal.rs`, `wal/writer.rs`, `wal/reader.rs`) -/

/-- `WAL_CRC_SIZE`. -/
def WAL_CRC_SIZE : Nat := 4

/-- `WAL_PAYLOAD_LEN_SIZE`. -/
def WAL_PAYLOAD_LEN_SIZE : Nat := 8

/-- `WAL_TYPE_SIZE`. -/
def WAL_TYPE_SIZE : Nat := 1

/-- `WAL_SEQ_SIZE`. -/
def WAL_SEQ_SIZE : Nat := 8

/-- `WAL_HEADER_SIZE = 4 + 8 + 1 + 8 = 21`. -/
def WAL_HEADER_SIZE : Nat := WAL_CRC_SIZE + WAL_PAYLOAD_LEN_SIZE + WAL_TYPE_SIZE + WAL_SEQ_SIZE

/-- `WAL_KEY_LEN_SIZE`. -/
def WAL_KEY_LEN_SIZE : Nat := 8

/-- `WAL_EXPIRE_LEN_SIZE`. -/
def WAL_EXPIRE_LEN_SIZE : Nat := 8

/-- `WAL_MAX_KEY_SIZE = 1 MiB` (reader OOM guard). -/
def WAL_MAX_KEY_SIZE : Nat := 1024 * 1024

/-- `WAL_MAX_VAL_SIZE = 64 MiB` (reader OOM guard). -/
def WAL_MAX_VAL_SIZE : Nat := 64 * 1024 * 1024

/-- The `ReadError` enum of `wal/reader.rs`. The only `std::io` error the
pure byte-stream model can produce is the unexpected-EOF of a short
`read_exact`, so the `Io` variant is modelled by that case. -/
inductive ReadError where
  | IoUnexpectedEof
  | CrcMismatch (expected actual : Nat)
  | InvalidRecordType (tag : Nat)
  | PayloadTooLarge (key_len val_len max_key max_val : Nat)
deriving DecidableEq, Repr

deriving instance DecidableEq for Except

/-- The value section of a WAL record: raw bytes for `Normal`, empty for
`Tombstone`, big-endian `expire_at` followed by the bytes for `Expiring`
(this is what both `WalWriter::append` and the CRC hasher emit). -/
def valueSection : ValueType → List Nat
  | .Normal data => data
  | .Tombstone => []
  | .Expiring data expire_at => toBeBytes 8 expire_at ++ data

theorem valueSection_length (v : ValueType) :
    (valueSection v).length = v.serialized_len := by
  cases v <;> simp [valueSection, ValueType.serialized_len, ValueType.data_len,
    ValueType.meta_len, toBeBytes_length]
  omega

namespace WalWriter

/-- `WalWriter::append`: the bytes appended to the WAL buffer for one entry —
21-byte header (CRC, payload length, value tag, seq) followed by the payload
(key length, key bytes, value section). `payload_len` is computed in `u64`
arithmetic. -/
def append (e : Entry) : List Nat :=
  let val_type := e.val.type_tag
  let key_len := e.key.length
  let val_len := e.val.serialized_len
  let payload_len := (WAL_KEY_LEN_SIZE + key_len + val_len) % U64_MOD
  let crc := crc32 (toBeBytes 8 payload_len ++ [val_type] ++ toBeBytes 8 e.seq
    ++ toBeBytes 8 key_len ++ e.key ++ valueSection e.val)
  toBeBytes 4 crc ++ toBeBytes 8 payload_len ++ [val_type] ++ toBeBytes 8 e.seq
    ++ toBeBytes 8 key_len ++ e.key ++ valueSection e.val

end WalWriter

namespace WalIterator

/-- `WalIterator::read_next_entry` over an explicit byte stream.

Returns the step result together with the remaining stream. A zero-length
stream at a record boundary is clean EOF (`.ok none`); any short
`read_exact` is the unexpected-EOF I/O error, after which the reader has
consumed all remaining bytes (so the following step sees clean EOF).

In the `Expiring` arm the Rust code slices `val_buf[..8]`, which panics if
the value section is shorter than 8 bytes; that state is unreachable in
every theorem below (it needs a valid CRC over a short `Expiring` section),
and the model's `take`/`fromBeBytes` is only evaluated away from it. -/
def read_next_entry (s : List Nat) : Except ReadError (Option Entry) × List Nat :=
  if s.length = 0 then (.ok none, s)
  else if s.length < WAL_HEADER_SIZE then (.error .IoUnexpectedEof, [])
  else
    let header := s.take WAL_HEADER_SIZE
    let s1 := s.drop WAL_HEADER_SIZE
    let header_crc := fromBeBytes (header.take WAL_CRC_SIZE)
    let payload_len := fromBeBytes ((header.drop WAL_CRC_SIZE).take WAL_PAYLOAD_LEN_SIZE)
    let val_type := (header.drop (WAL_CRC_SIZE + WAL_PAYLOAD_LEN_SIZE)).headD 0
    let seq := fromBeBytes (header.drop (WAL_CRC_SIZE + WAL_PAYLOAD_LEN_SIZE + WAL_TYPE_SIZE))
    if s1.length < WAL_KEY_LEN_SIZE then (.error .IoUnexpectedEof, [])
    else
      let key_len := fromBeBytes (s1.take WAL_KEY_LEN_SIZE)
      let s2 := s1.drop WAL_KEY_LEN_SIZE
      if s2.length < key_len then (.error .IoUnexpectedEof, [])
      else
        let key := s2.take key_len
        let s3 := s2.drop key_len
        let val_len := (payload_len + 2 * U64_MOD - WAL_KEY_LEN_SIZE - key_len) % U64_MOD
        if WAL_MAX_KEY_SIZE < key_len ∨ WAL_MAX_VAL_SIZE < val_len then
          (.error (.PayloadTooLarge key_len val_len WAL_MAX_KEY_SIZE WAL_MAX_VAL_SIZE), s3)
        else if s3.length < val_len then (.error .IoUnexpectedEof, [])
        else
          let val_buf := s3.take val_len
          let s4 := s3.drop val_len
          let calculate_crc := crc32 (toBeBytes 8 payload_len ++ [val_type]
            ++ toBeBytes 8 seq ++ toBeBytes 8 key_len ++ key ++ val_buf)
          if calculate_crc ≠ header_crc then
            (.error (.CrcMismatch header_crc calculate_crc), s4)
          else if val_type = NORMAL_VALUE_TYPE then
            (.ok (some ⟨key, .Normal val_buf, seq⟩), s4)
          else if val_type = TOMBSTONE_VALUE_TYPE then
            (.ok (some ⟨key, .Tombstone, seq⟩), s4)
          else if val_type = EXPIRING_VALUE_TYPE then
            (.ok (some ⟨key, .Expiring (val_buf.drop WAL_EXPIRE_LEN_SIZE)
              (fromBeBytes (val_buf.take WAL_EXPIRE_LEN_SIZE)), seq⟩), s4)
          else (.error (.InvalidRecordType val_type), s4)

end WalIterator

namespace WalIterator

/-- Reading a stream that starts with one well-formed record: the reader
parses the header and payload, verifies the CRC, and dispatches on the tag,
leaving exactly the trailing bytes unconsumed. -/
theorem read_record (crcv plen tag seqv klen : Nat) (key vsec rest : List Nat)
    (hplen : plen = 8 + klen + vsec.length)
    (hkey_len : key.length = klen)
    (hklen : klen ≤ WAL_MAX_KEY_SIZE)
    (hvsec : vsec.length ≤ WAL_MAX_VAL_SIZE)
    (hcrc : crcv = crc32 (toBeBytes 8 plen ++ [tag] ++ toBeBytes 8 seqv
      ++ toBeBytes 8 klen ++ key ++ vsec))
    (hcrclt : crcv < 2 ^ 32)
    (hseqlt : seqv < U64_MOD) :
    read_next_entry (toBeBytes 4 crcv ++ (toBeBytes 8 plen ++ ([tag]
        ++ (toBeBytes 8 seqv ++ (toBeBytes 8 klen ++ (key ++ (vsec ++ rest)))))))
      = ((if tag = NORMAL_VALUE_TYPE then .ok (some ⟨key, .Normal vsec, seqv⟩)
          else if tag = TOMBSTONE_VALUE_TYPE then .ok (some ⟨key, .Tombstone, seqv⟩)
          else if tag = EXPIRING_VALUE_TYPE then
            .ok (some ⟨key, .Expiring (vsec.drop WAL_EXPIRE_LEN_SIZE)
              (fromBeBytes (vsec.take WAL_EXPIRE_LEN_SIZE)), seqv⟩)
          else .error (.InvalidRecordType tag)), rest) := by
  have hMk : WAL_MAX_KEY_SIZE = 1024 * 1024 := rfl
  have hMv : WAL_MAX_VAL_SIZE = 64 * 1024 * 1024 := rfl
  have hU : U64_MOD = 2 ^ 64 := rfl
  set s := toBeBytes 4 crcv ++ (toBeBytes 8 plen ++ ([tag]
    ++ (toBeBytes 8 seqv ++ (toBeBytes 8 klen ++ (key ++ (vsec ++ rest)))))) with hs
  have hplenlt : plen < 256 ^ 8 := by
    rw [hplen]
    have : (256:Nat) ^ 8 = 2 ^ 64 := by norm_num
    omega
  have hklenlt : klen < 256 ^ 8 := by
    have : (256:Nat) ^ 8 = 2 ^ 64 := by norm_num
    omega
  have hslen : s.length = 21 + (8 + (klen + (vsec.length + rest.length))) := by
    simp only [hs, List.length_append, toBeBytes_length, List.length_cons,
      List.length_nil, hkey_len]
    omega
  -- split off the 21-byte header
  have hsplit21 : s = (toBeBytes 4 crcv ++ toBeBytes 8 plen ++ [tag] ++ toBeBytes 8 seqv)
      ++ (toBeBytes 8 klen ++ (key ++ (vsec ++ rest))) := by
    simp only [hs, List.append_assoc]
  have hhdrlen : (toBeBytes 4 crcv ++ toBeBytes 8 plen ++ [tag] ++ toBeBytes 8 seqv).length
      = 21 := by
    simp [toBeBytes_length]
  have htake21 : s.take 21 = toBeBytes 4 crcv ++ toBeBytes 8 plen ++ [tag]
      ++ toBeBytes 8 seqv := by
    rw [hsplit21]
    exact List.take_left' hhdrlen
  have hdrop21 : s.drop 21 = toBeBytes 8 klen ++ (key ++ (vsec ++ rest)) := by
    rw [hsplit21]
    exact List.drop_left' hhdrlen
  -- header fields
  have htake4 : (s.take 21).take 4 = toBeBytes 4 crcv := by
    rw [htake21]
    have : toBeBytes 4 crcv ++ toBeBytes 8 plen ++ [tag] ++ toBeBytes 8 seqv
        = toBeBytes 4 crcv ++ (toBeBytes 8 plen ++ [tag] ++ toBeBytes 8 seqv) := by
      simp [List.append_assoc]
    rw [this]
    exact List.take_left' (toBeBytes_length 4 crcv)
  have hcrcparse : fromBeBytes ((s.take 21).take 4) = crcv := by
    rw [htake4]
    exact fromBeBytes_toBeBytes_of_lt (by
      have : (256:Nat) ^ 4 = 2 ^ 32 := by norm_num
      omega)
  have hdrop4 : (s.take 21).drop 4 = toBeBytes 8 plen ++ ([tag] ++ toBeBytes 8 seqv) := by
    rw [htake21]
    have : toBeBytes 4 crcv ++ toBeBytes 8 plen ++ [tag] ++ toBeBytes 8 seqv
        = toBeBytes 4 crcv ++ (toBeBytes 8 plen ++ ([tag] ++ toBeBytes 8 seqv)) := by
      simp [List.append_assoc]
    rw [this]
    exact List.drop_left' (toBeBytes_length 4 crcv)
  have hplenparse : fromBeBytes (((s.take 21).drop 4).take 8) = plen := by
    rw [hdrop4, List.take_left' (toBeBytes_length 8 plen)]
    exact fromBeBytes_toBeBytes_of_lt hplenlt
  have htagparse : ((s.take 21).drop 12).headD 0 = tag := by
    rw [htake21]
    have h12 : (toBeBytes 4 crcv ++ toBeBytes 8 plen).length = 12 := by
      simp [toBeBytes_length]
    have : toBeBytes 4 crcv ++ toBeBytes 8 plen ++ [tag] ++ toBeBytes 8 seqv
        = (toBeBytes 4 crcv ++ toBeBytes 8 plen) ++ ([tag] ++ toBeBytes 8 seqv) := by
      simp [List.append_assoc]
    rw [this, List.drop_left' h12]
    rfl
  have hseqparse : fromBeBytes ((s.take 21).drop 13) = seqv := by
    rw [htake21]
    have h13 : (toBeBytes 4 crcv ++ toBeBytes 8 plen ++ [tag]).length = 13 := by
      simp [toBeBytes_length]
    have : toBeBytes 4 crcv ++ toBeBytes 8 plen ++ [tag] ++ toBeBytes 8 seqv
        = (toBeBytes 4 crcv ++ toBeBytes 8 plen ++ [tag]) ++ toBeBytes 8 seqv := by
      simp [List.append_assoc]
    rw [this, List.drop_left' h13]
    exact fromBeBytes_toBeBytes_of_lt (by rw [hU] at hseqlt; omega)
  -- key length and key
  have hklenparse : fromBeBytes ((s.drop 21).take 8) = klen := by
    rw [hdrop21, List.take_left' (toBeBytes_length 8 klen)]
    exact fromBeBytes_toBeBytes_of_lt hklenlt
  have hdrop8 : (s.drop 21).drop 8 = key ++ (vsec ++ rest) := by
    rw [hdrop21]
    exact List.drop_left' (toBeBytes_length 8 klen)
  have hkeyparse : ((s.drop 21).drop 8).take klen = key := by
    rw [hdrop8]
    exact List.take_left' hkey_len
  have hs3 : ((s.drop 21).drop 8).drop klen = vsec ++ rest := by
    rw [hdrop8]
    exact List.drop_left' hkey_len
  -- wrapped value-section length
  have hvlen_eq : (plen + 2 * U64_MOD - 8 - klen) % U64_MOD = vsec.length := by
    rw [hU] at *
    rw [hplen]
    have h1 : 8 + klen + vsec.length + 2 * 2 ^ 64 - 8 - klen
        = vsec.length + 2 * 2 ^ 64 := by omega
    rw [h1]
    have : (256:Nat) ^ 8 = 2 ^ 64 := by norm_num
    omega
  have hvalparse : (((s.drop 21).drop 8).drop klen).take vsec.length = vsec := by
    rw [hs3]
    exact List.take_left' rfl
  have hs4 : (((s.drop 21).drop 8).drop klen).drop vsec.length = rest := by
    rw [hs3]
    exact List.drop_left' rfl
  -- conditions
  have c0 : ¬ (s.length = 0) := by omega
  have c1 : ¬ (s.length < 21) := by omega
  have c2 : ¬ ((s.drop 21).length < 8) := by
    simp only [List.length_drop]
    omega
  have c3 : ¬ (((s.drop 21).drop 8).length < klen) := by
    simp only [List.length_drop]
    omega
  have c4 : ¬ (WAL_MAX_KEY_SIZE < klen ∨ WAL_MAX_VAL_SIZE < vsec.length) := by
    push_neg
    exact ⟨hklen, hvsec⟩
  have c5 : ¬ ((((s.drop 21).drop 8).drop klen).length < vsec.length) := by
    simp only [List.length_drop]
    omega
  have c6 : ¬ (crc32 (toBeBytes 8 plen ++ [tag] ++ toBeBytes 8 seqv
      ++ toBeBytes 8 klen ++ key ++ vsec) ≠ crcv) := by
    rw [hcrc]
    exact fun h => h rfl
  simp only [read_next_entry, WAL_HEADER_SIZE, WAL_CRC_SIZE, WAL_PAYLOAD_LEN_SIZE,
    WAL_TYPE_SIZE, WAL_SEQ_SIZE, WAL_KEY_LEN_SIZE, Nat.reduceAdd, hcrcparse,
    hplenparse, htagparse, hseqparse, hklenparse, hvlen_eq, hkeyparse, hvalparse,
    hs4, if_neg c0, if_neg c1, if_neg c2, if_neg c3, if_neg c4, if_neg c5,
    if_neg c6]
  split_ifs
  all_goals rfl

end WalIterator

/-- Well-formedness of a value for WAL round-tripping: payload bytes are
real bytes, and an `Expiring` stamp fits in a `u64`. -/
def ValueType.Wf : ValueType → Prop
  | .Normal d => ∀ b ∈ d, b < 256
  | .Tombstone => True
  | .Expiring d t => (∀ b ∈ d, b < 256) ∧ t < U64_MOD

instance : DecidablePred ValueType.Wf
  | .Normal d => inferInstanceAs (Decidable (∀ b ∈ d, b < 256))
  | .Tombstone => inferInstanceAs (Decidable True)
  | .Expiring d t => inferInstanceAs (Decidable ((∀ b ∈ d, b < 256) ∧ t < U64_MOD))

/-- Well-formedness of an entry for WAL round-tripping: key within the 1 MiB
reader limit, value section within the 64 MiB limit, `seq` a `u64`, and all
payload bytes real bytes. -/
def EntryWf (e : Entry) : Prop :=
  e.key.length ≤ WAL_MAX_KEY_SIZE ∧ e.val.serialized_len ≤ WAL_MAX_VAL_SIZE ∧
    e.seq < U64_MOD ∧ (∀ b ∈ e.key, b < 256) ∧ e.val.Wf

instance : DecidablePred EntryWf := fun e => by
  unfold EntryWf
  infer_instance

theorem valueSection_bytes {v : ValueType} (hw : v.Wf) :
    ∀ b ∈ valueSection v, b < 256 := by
  cases v with
  | Normal d => exact hw
  | Tombstone => simp [valueSection]
  | Expiring d t =>
    intro b hb
    rcases List.mem_append.1 hb with h | h
    · exact toBeBytes_lt_256 8 t b h
    · exact hw.1 b h

theorem type_tag_lt_256 (v : ValueType) : v.type_tag < 256 := by
  cases v <;> simp [ValueType.type_tag, NORMAL_VALUE_TYPE, TOMBSTONE_VALUE_TYPE,
    EXPIRING_VALUE_TYPE]

namespace WalIterator

/-- WAL record round-trip at the stream level: reading a stream that starts
with `WalWriter::append e` yields `e` back and consumes exactly the record's
bytes. -/
theorem read_append {e : Entry} (hw : EntryWf e) (rest : List Nat) :
    read_next_entry (WalWriter.append e ++ rest) = (.ok (some e), rest) := by
  obtain ⟨hk, hv, hs, hkb, hvw⟩ := hw
  have hMk : WAL_MAX_KEY_SIZE = 1024 * 1024 := rfl
  have hMv : WAL_MAX_VAL_SIZE = 64 * 1024 * 1024 := rfl
  have hU : U64_MOD = 2 ^ 64 := rfl
  have hvslen : (valueSection e.val).length = e.val.serialized_len :=
    valueSection_length e.val
  have hplenmod : (WAL_KEY_LEN_SIZE + e.key.length + e.val.serialized_len) % U64_MOD
      = 8 + e.key.length + (valueSection e.val).length := by
    rw [hvslen]
    have h8 : WAL_KEY_LEN_SIZE = 8 := rfl
    rw [h8]
    exact Nat.mod_eq_of_lt (by rw [hU]; omega)
  set plen := 8 + e.key.length + (valueSection e.val).length with hplen_def
  set tag := e.val.type_tag with htag_def
  set X := toBeBytes 8 plen ++ [tag] ++ toBeBytes 8 e.seq
    ++ toBeBytes 8 e.key.length ++ e.key ++ valueSection e.val with hX
  have hXbytes : ∀ b ∈ X, b < 256 := by
    intro b hb
    simp only [hX, List.append_assoc, List.mem_append, List.mem_singleton] at hb
    rcases hb with h | h | h | h | h | h
    · exact toBeBytes_lt_256 _ _ b h
    · subst h; exact type_tag_lt_256 e.val
    · exact toBeBytes_lt_256 _ _ b h
    · exact toBeBytes_lt_256 _ _ b h
    · exact hkb b h
    · exact valueSection_bytes hvw b h
  have hcrclt : crc32 X < 2 ^ 32 := crc32_lt X hXbytes
  have happ : WalWriter.append e ++ rest
      = toBeBytes 4 (crc32 X) ++ (toBeBytes 8 plen ++ ([tag]
        ++ (toBeBytes 8 e.seq ++ (toBeBytes 8 e.key.length
          ++ (e.key ++ (valueSection e.val ++ rest)))))) := by
    simp only [WalWriter.append, hplenmod, ← hplen_def, ← htag_def, hX,
      List.append_assoc]
  rw [happ]
  rw [read_record (crc32 X) plen tag e.seq e.key.length e.key (valueSection e.val)
    rest hplen_def rfl hk (by rw [hvslen]; exact hv)
    (by rw [hX]) hcrclt hs]
  cases hval : e.val with
  | Normal d =>
    have htagn : tag = NORMAL_VALUE_TYPE := by rw [htag_def, hval]; rfl
    rw [if_pos htagn]
    simp only [valueSection]
    rw [← hval]
  | Tombstone =>
    have h1 : tag = TOMBSTONE_VALUE_TYPE := by rw [htag_def, hval]; rfl
    have h0 : ¬ (tag = NORMAL_VALUE_TYPE) := by rw [h1]; decide
    rw [if_neg h0, if_pos h1]
    rw [← hval]
  | Expiring d t =>
    have h2 : tag = EXPIRING_VALUE_TYPE := by rw [htag_def, hval]; rfl
    have h0 : ¬ (tag = NORMAL_VALUE_TYPE) := by rw [h2]; decide
    have h1 : ¬ (tag = TOMBSTONE_VALUE_TYPE) := by rw [h2]; decide
    rw [if_neg h0, if_neg h1, if_pos h2]
    simp only [valueSection]
    have hdrop : ((toBeBytes 8 t ++ d).drop WAL_EXPIRE_LEN_SIZE) = d :=
      List.drop_left' (toBeBytes_length 8 t)
    have htake : ((toBeBytes 8 t ++ d).take WAL_EXPIRE_LEN_SIZE) = toBeBytes 8 t :=
      List.take_left' (toBeBytes_length 8 t)
    rw [hdrop, htake, fromBeBytes_toBeBytes_of_lt (by
      have : (256:Nat) ^ 8 = 2 ^ 64 := by norm_num
      have ht := (by rw [hval] at hvw; exact hvw.2 : t < U64_MOD)
      rw [hU] at ht
      omega)]
    rw [← hval]

end WalIterator

namespace WalIterator

theorem read_nil : read_next_entry [] = (.ok none, []) := rfl

set_option maxHeartbeats 1000000 in
/-- Whenever the stream is nonempty, a reader step strictly consumes. -/
theorem read_state_length {s : List Nat} (h : s ≠ []) :
    (read_next_entry s).2.length < s.length := by
  have hlen : s.length ≠ 0 := by simpa using h
  simp only [read_next_entry, if_neg hlen, WAL_HEADER_SIZE, WAL_CRC_SIZE,
    WAL_PAYLOAD_LEN_SIZE, WAL_TYPE_SIZE, WAL_SEQ_SIZE, WAL_KEY_LEN_SIZE,
    Nat.reduceAdd]
  split_ifs
  all_goals simp only [List.length_drop, List.length_nil] at *
  all_goals omega

/-- Driving the iterator: the sequence of `next()` results of `WalIterator`
until clean EOF. The `fuel` argument makes the recursion structural;
`fuel > s.length` suffices because every yielded item strictly consumes. -/
def itemsAux : Nat → List Nat → List (Except ReadError Entry)
  | 0, _ => []
  | fuel + 1, s =>
    match read_next_entry s with
    | (.ok none, _) => []
    | (.ok (some e), s') => .ok e :: itemsAux fuel s'
    | (.error err, s') => .error err :: itemsAux fuel s'

/-- The full item sequence produced by iterating a WAL byte stream. -/
def items (s : List Nat) : List (Except ReadError Entry) :=
  itemsAux (s.length + 1) s

theorem itemsAux_congr :
    ∀ (f1 : Nat) (s : List Nat) (f2 : Nat), s.length < f1 → s.length < f2 →
      itemsAux f1 s = itemsAux f2 s := by
  intro f1
  induction f1 with
  | zero => intro s f2 h1; omega
  | succ f1 ih =>
    intro s f2 h1 h2
    match f2, h2 with
    | g + 1, h2 =>
      simp only [itemsAux]
      by_cases hnil : s = []
      · subst hnil
        simp [read_nil]
      · have hlt := read_state_length hnil
        match hr : read_next_entry s with
        | (.ok none, t) => simp
        | (.ok (some e), s') =>
          rw [hr] at hlt
          have hlt' : s'.length < s.length := hlt
          simp only []
          rw [ih s' g (by omega) (by omega)]
        | (.error err, s') =>
          rw [hr] at hlt
          have hlt' : s'.length < s.length := hlt
          simp only []
          rw [ih s' g (by omega) (by omega)]

theorem items_nil : items [] = [] := rfl

theorem items_step_entry {s s' : List Nat} {e : Entry}
    (h : read_next_entry s = (.ok (some e), s')) :
    items s = .ok e :: items s' := by
  have hnil : s ≠ [] := by
    intro hn
    subst hn
    rw [read_nil] at h
    cases h
  have hlt := read_state_length hnil
  rw [h] at hlt
  obtain ⟨n, hn⟩ : ∃ n, s.length = n + 1 := by
    refine ⟨s.length - 1, ?_⟩
    have : s.length ≠ 0 := by simpa using hnil
    omega
  have hlt' : s'.length < s.length := hlt
  show itemsAux (s.length + 1) s = _
  rw [hn]
  simp only [itemsAux, h]
  congr 1
  show itemsAux (n + 1) s' = items s'
  unfold items
  exact itemsAux_congr (n + 1) s' (s'.length + 1) (by omega) (by omega)

theorem items_step_error {s s' : List Nat} {err : ReadError}
    (h : read_next_entry s = (.error err, s')) :
    items s = .error err :: items s' := by
  have hnil : s ≠ [] := by
    intro hn
    subst hn
    rw [read_nil] at h
    cases h
  have hlt := read_state_length hnil
  rw [h] at hlt
  obtain ⟨n, hn⟩ : ∃ n, s.length = n + 1 := by
    refine ⟨s.length - 1, ?_⟩
    have : s.length ≠ 0 := by simpa using hnil
    omega
  have hlt' : s'.length < s.length := hlt
  show itemsAux (s.length + 1) s = _
  rw [hn]
  simp only [itemsAux, h]
  congr 1
  show itemsAux (n + 1) s' = items s'
  unfold items
  exact itemsAux_congr (n + 1) s' (s'.length + 1) (by omega) (by omega)

end WalIterator

/-- Concatenated WAL encoding of a sequence of entries: exactly the bytes a
writer that appends them in order produces. -/
def walEncodeAll : List Entry → List Nat
  | [] => []
  | e :: es => WalWriter.append e ++ walEncodeAll es

/-- Iterating a stream of well-formed records yields exactly those entries. -/
theorem WalIterator.items_encodeAll {es : List Entry} (h : ∀ e ∈ es, EntryWf e) :
    items (walEncodeAll es) = es.map .ok := by
  induction es with
  | nil => exact items_nil
  | cons e es ih =>
    rw [walEncodeAll,
      items_step_entry (read_append (h e (List.mem_cons_self _ _)) (walEncodeAll es)),
      ih (fun x hx => h x (List.mem_cons_of_mem _ hx))]
    rfl

namespace WalIterator

set_option maxHeartbeats 1000000 in
/-- Reading any strict nonempty prefix of a single well-formed record fails
with the unexpected-EOF I/O error, whichever field the cut falls in, and
consumes the whole (truncated) stream. -/
theorem read_record_truncated (crcv plen tag seqv klen : Nat) (key vsec : List Nat)
    (hplen : plen = 8 + klen + vsec.length)
    (hkey_len : key.length = klen)
    (hklen : klen ≤ WAL_MAX_KEY_SIZE)
    (hvsec : vsec.length ≤ WAL_MAX_VAL_SIZE)
    {k : Nat} (h1 : 1 ≤ k)
    (h2 : k < 29 + klen + vsec.length) :
    read_next_entry ((toBeBytes 4 crcv ++ (toBeBytes 8 plen ++ ([tag]
        ++ (toBeBytes 8 seqv ++ (toBeBytes 8 klen ++ (key ++ vsec)))))).take k)
      = (.error .IoUnexpectedEof, []) := by
  have hMk : WAL_MAX_KEY_SIZE = 1024 * 1024 := rfl
  have hMv : WAL_MAX_VAL_SIZE = 64 * 1024 * 1024 := rfl
  have hU : U64_MOD = 2 ^ 64 := rfl
  set R := toBeBytes 4 crcv ++ (toBeBytes 8 plen ++ ([tag]
    ++ (toBeBytes 8 seqv ++ (toBeBytes 8 klen ++ (key ++ vsec))))) with hR
  have hRlen : R.length = 29 + klen + vsec.length := by
    simp only [hR, List.length_append, toBeBytes_length, List.length_cons,
      List.length_nil, hkey_len]
    omega
  set s := R.take k with hsdef
  have hslen : s.length = k := List.length_take_of_le (by omega)
  have c0 : ¬ (s.length = 0) := by omega
  have hplenlt : plen < 256 ^ 8 := by
    rw [hplen]
    have : (256:Nat) ^ 8 = 2 ^ 64 := by norm_num
    omega
  have hklenlt : klen < 256 ^ 8 := by
    have : (256:Nat) ^ 8 = 2 ^ 64 := by norm_num
    omega
  by_cases hk21 : k < 21
  · simp only [read_next_entry, if_neg c0, WAL_HEADER_SIZE, WAL_CRC_SIZE,
      WAL_PAYLOAD_LEN_SIZE, WAL_TYPE_SIZE, WAL_SEQ_SIZE, WAL_KEY_LEN_SIZE,
      Nat.reduceAdd]
    rw [if_pos (by omega)]
  · -- the full 21-byte header is present
    have hsplit21 : R = (toBeBytes 4 crcv ++ toBeBytes 8 plen ++ [tag]
        ++ toBeBytes 8 seqv) ++ (toBeBytes 8 klen ++ (key ++ vsec)) := by
      simp only [hR, List.append_assoc]
    have hhdrlen : (toBeBytes 4 crcv ++ toBeBytes 8 plen ++ [tag]
        ++ toBeBytes 8 seqv).length = 21 := by
      simp [toBeBytes_length]
    have htake21 : s.take 21 = toBeBytes 4 crcv ++ toBeBytes 8 plen ++ [tag]
        ++ toBeBytes 8 seqv := by
      rw [hsdef, List.take_take, min_eq_left (by omega), hsplit21]
      exact List.take_left' hhdrlen
    have hdrop21 : s.drop 21 = (toBeBytes 8 klen ++ (key ++ vsec)).take (k - 21) := by
      rw [hsdef, List.drop_take, hsplit21, List.drop_left' hhdrlen]
    have c1 : ¬ (s.length < 21) := by omega
    by_cases hk29 : k < 29
    · simp only [read_next_entry, if_neg c0, WAL_HEADER_SIZE, WAL_CRC_SIZE,
        WAL_PAYLOAD_LEN_SIZE, WAL_TYPE_SIZE, WAL_SEQ_SIZE, WAL_KEY_LEN_SIZE,
        Nat.reduceAdd, if_neg c1]
      rw [if_pos (by
        simp only [List.length_drop]
        omega)]
    · -- the 8-byte key length is present
      have htake8 : (s.drop 21).take 8 = toBeBytes 8 klen := by
        rw [hdrop21, List.take_take, min_eq_left (by omega)]
        exact List.take_left' (toBeBytes_length 8 klen)
      have hklenparse : fromBeBytes ((s.drop 21).take 8) = klen := by
        rw [htake8]
        exact fromBeBytes_toBeBytes_of_lt hklenlt
      have hdrop8 : (s.drop 21).drop 8 = (key ++ vsec).take (k - 29) := by
        rw [hdrop21, List.drop_take, List.drop_left' (toBeBytes_length 8 klen)]
        have hsub : k - 21 - 8 = k - 29 := by omega
        rw [hsub]
      have hs2len : ((s.drop 21).drop 8).length = k - 29 := by
        rw [hdrop8]
        exact List.length_take_of_le (by
          simp only [List.length_append, hkey_len]
          omega)
      by_cases hkey : k < 29 + klen
      · simp only [read_next_entry, if_neg c0, WAL_HEADER_SIZE, WAL_CRC_SIZE,
          WAL_PAYLOAD_LEN_SIZE, WAL_TYPE_SIZE, WAL_SEQ_SIZE, WAL_KEY_LEN_SIZE,
          Nat.reduceAdd, if_neg c1, if_neg (show ¬ ((s.drop 21).length < 8) by
            simp only [List.length_drop]; omega), hklenparse]
        rw [if_pos (by omega)]
      · -- the key is present; the cut falls inside the value section
        have hplenparse : fromBeBytes (((s.take 21).drop 4).take 8) = plen := by
          have hdrop4 : (s.take 21).drop 4 = toBeBytes 8 plen ++ ([tag]
              ++ toBeBytes 8 seqv) := by
            rw [htake21]
            have hgrp : toBeBytes 4 crcv ++ toBeBytes 8 plen ++ [tag]
                ++ toBeBytes 8 seqv
                = toBeBytes 4 crcv ++ (toBeBytes 8 plen ++ ([tag]
                  ++ toBeBytes 8 seqv)) := by
              simp [List.append_assoc]
            rw [hgrp]
            exact List.drop_left' (toBeBytes_length 4 crcv)
          rw [hdrop4, List.take_left' (toBeBytes_length 8 plen)]
          exact fromBeBytes_toBeBytes_of_lt hplenlt
        have hkeyparse : ((s.drop 21).drop 8).take klen = key := by
          rw [hdrop8, List.take_take, min_eq_left (by omega)]
          exact List.take_left' hkey_len
        have hvlen_eq : (plen + 2 * U64_MOD - 8 - klen) % U64_MOD = vsec.length := by
          rw [hU] at *
          rw [hplen]
          have hshape : 8 + klen + vsec.length + 2 * 2 ^ 64 - 8 - klen
              = vsec.length + 2 * 2 ^ 64 := by omega
          rw [hshape]
          have : (256:Nat) ^ 8 = 2 ^ 64 := by norm_num
          omega
        have hs3len : (((s.drop 21).drop 8).drop klen).length = k - 29 - klen := by
          simp only [List.length_drop]
          omega
        have c4 : ¬ (WAL_MAX_KEY_SIZE < klen ∨ WAL_MAX_VAL_SIZE < vsec.length) := by
          push_neg
          exact ⟨hklen, hvsec⟩
        simp only [read_next_entry, if_neg c0, WAL_HEADER_SIZE, WAL_CRC_SIZE,
          WAL_PAYLOAD_LEN_SIZE, WAL_TYPE_SIZE, WAL_SEQ_SIZE, WAL_KEY_LEN_SIZE,
          Nat.reduceAdd, if_neg c1, if_neg (show ¬ ((s.drop 21).length < 8) by
            simp only [List.length_drop]; omega), hklenparse, hplenparse,
          if_neg (show ¬ (((s.drop 21).drop 8).length < klen) by omega),
          hvlen_eq, hkeyparse, if_neg c4]
        rw [if_pos (by omega)]

end WalIterator

/-- The per-file record loop of `Wal::read_all_entries`: fold over the
iterator's items, keeping entries with `seq >= min_seq` (updating `max_seq`),
breaking silently on the torn-tail unexpected-EOF, and aborting on any other
error. -/
def processItems : List (Except ReadError Entry) → Nat → List Entry → Nat →
    Except ReadError (List Entry × Nat)
  | [], _, acc, max_seq => .ok (acc, max_seq)
  | .ok e :: rest, min_seq, acc, max_seq =>
    if min_seq ≤ e.seq then
      processItems rest min_seq (acc ++ [e]) (max max_seq e.seq)
    else
      processItems rest min_seq acc max_seq
  | .error .IoUnexpectedEof :: _, _, acc, max_seq => .ok (acc, max_seq)
  | .error err :: _, _, _, _ => .error err

/-- The outer file loop of `Wal::read_all_entries`. -/
def readFilesAux : List (Nat × List Nat) → Nat → List Entry → Nat →
    Except ReadError (List Entry × Nat)
  | [], _, acc, max_seq => .ok (acc, max_seq)
  | (_, bytes) :: fs, min_seq, acc, max_seq =>
    match processItems (WalIterator.items bytes) min_seq acc max_seq with
    | .error e => .error e
    | .ok (acc', max') => readFilesAux fs min_seq acc' max'

namespace Wal

/-- `Wal::read_all_entries` over an explicit directory listing: the
directory-scan step is modelled by taking the already-parsed
`(file_id, file bytes)` pairs as input. The files are sorted ascending by
id, each is iterated with the filter/torn-tail/abort policy, and the
collected entries are finally sorted by seq (`sort_by_key` is a stable
sort; every property proved below about the result — membership,
sortedness by `seq`, `max_seq` — is independent of how it orders entries
with equal `seq`, so a stable insertion sort models it). `max_seq` starts
at `u64::MIN = 0`. -/
def read_all_entries (files : List (Nat × List Nat)) (min_seq : Nat) :
    Except ReadError (List Entry × Nat) :=
  let wal_files := List.insertionSort (fun a b => a.1 ≤ b.1) files
  match readFilesAux wal_files min_seq [] 0 with
  | .error e => .error e
  | .ok (all_entrise, max_seq) =>
    .ok (List.insertionSort (fun a b => a.seq ≤ b.seq) all_entrise, max_seq)

end Wal

/-! ## Memtable (`boxkv-core/src/memtable.rs`) -/

/-- `ENTRY_METADATA_SIZE = size_of::<u64>() * 2 = 16` (seq + reserved). -/
def ENTRY_METADATA_SIZE : Nat := 16

/-- The `EntryInfo` struct stored per key. -/
structure EntryInfo where
  value : ValueType
  seq : Nat
deriving DecidableEq, Repr

/-- `u64::wrapping AtomicU64::fetch_add`. -/
def wrappingAdd (a b : Nat) : Nat := (a + b) % U64_MOD

/-- `AtomicU64::fetch_sub` (wraps around on underflow). -/
def wrappingSub (a b : Nat) : Nat := (a + U64_MOD - b % U64_MOD) % U64_MOD

/-- `as i64` reinterpretation of a 64-bit unsigned value. -/
def i64_of_u64 (n : Nat) : Int :=
  if n % U64_MOD < I64_BOUND then ((n % U64_MOD : Nat) : Int)
  else ((n % U64_MOD : Nat) : Int) - ((U64_MOD : Nat) : Int)

/-- The `MemTable` struct: the ordered map is modelled as an association
list with unique keys (only `get`-style lookups, in-place updates and the
multiset of entries matter for the claims below, and those are independent
of the `BTreeMap`'s key ordering), plus the `AtomicU64` size counter. -/
structure MemTable where
  table : List (List Nat × EntryInfo)
  size : Nat
deriving DecidableEq, Repr

/-- Map lookup (`BTreeMap::get` keyed by the byte-string key). -/
def tableGet : List (List Nat × EntryInfo) → List Nat → Option EntryInfo
  | [], _ => none
  | (k, info) :: rest, key => if k = key then some info else tableGet rest key

/-- In-place mutation of an existing entry (`get_mut` + field assignment):
replaces the value and seq of the entry with the given key. -/
def tableReplace : List (List Nat × EntryInfo) → List Nat → ValueType → Nat →
    List (List Nat × EntryInfo)
  | [], _, _, _ => []
  | (k, info) :: rest, key, v, seq =>
    if k = key then (k, ⟨v, seq⟩) :: rest
    else (k, info) :: tableReplace rest key v seq

namespace MemTable

/-- `MemTable::new`. -/
def new : MemTable := ⟨[], 0⟩

/-- `MemTable::update`: insert or update an entry, adjusting the atomic
size counter by the signed `i64` difference of the old and new
serialized sizes (`fetch_add` / `fetch_sub`, which wrap on overflow). -/
def update (mt : MemTable) (seq : Nat) (key : List Nat) (value : ValueType) :
    MemTable :=
  match tableGet mt.table key with
  | some entry_info =>
    let old_size := key.length + entry_info.value.serialized_len + ENTRY_METADATA_SIZE
    let new_size := key.length + value.serialized_len + ENTRY_METADATA_SIZE
    let diff : Int := i64_of_u64 new_size - i64_of_u64 old_size
    let size' :=
      if 0 < diff then wrappingAdd mt.size diff.toNat
      else if diff < 0 then wrappingSub mt.size (-diff).toNat
      else mt.size
    ⟨tableReplace mt.table key value seq, size'⟩
  | none =>
    let size := key.length + value.serialized_len + ENTRY_METADATA_SIZE
    ⟨mt.table ++ [(key, ⟨value, seq⟩)], wrappingAdd mt.size size⟩

/-- `MemTable::put`. -/
def put (mt : MemTable) (seq : Nat) (key value : List Nat) : MemTable :=
  mt.update seq key (.Normal value)

/-- `MemTable::delete`: writes a tombstone. -/
def delete (mt : MemTable) (seq : Nat) (key : List Nat) : MemTable :=
  mt.update seq key .Tombstone

/-- Modelled from the spec: `put_expiring(seq, key, value_bytes, expire_at)`
— the memtable source in the provided tree only exposes `put`/`delete`,
and §4.3.2 specifies `put_expiring` as "a variant of `put`" writing an
`Expiring` entry through the same update path. -/
def put_expiring (mt : MemTable) (seq : Nat) (key value : List Nat)
    (expire_at : Nat) : MemTable :=
  mt.update seq key (.Expiring value expire_at)

/-- `MemTable::get`. -/
def get (mt : MemTable) (key : List Nat) : Option Entry :=
  (tableGet mt.table key).map fun entry_info => ⟨key, entry_info.value, entry_info.seq⟩

end MemTable

/-- A single memtable operation, for quantifying over operation sequences. -/
inductive MemOp where
  | put (seq : Nat) (key value : List Nat)
  | del (seq : Nat) (key : List Nat)
  | putExpiring (seq : Nat) (key value : List Nat) (expire_at : Nat)
deriving DecidableEq, Repr

namespace MemOp

/-- The key an operation addresses. -/
def key : MemOp → List Nat
  | put _ k _ => k
  | del _ k => k
  | putExpiring _ k _ _ => k

/-- The seq an operation carries. -/
def seq : MemOp → Nat
  | put s _ _ => s
  | del s _ => s
  | putExpiring s _ _ _ => s

/-- The value variant an operation writes. -/
def value : MemOp → ValueType
  | put _ _ v => .Normal v
  | del _ _ => .Tombstone
  | putExpiring _ _ v t => .Expiring v t

end MemOp

namespace MemTable

/-- Apply one operation through the public API. -/
def applyOp (mt : MemTable) : MemOp → MemTable
  | .put seq key value => mt.put seq key value
  | .del seq key => mt.delete seq key
  | .putExpiring seq key value expire_at => mt.put_expiring seq key value expire_at

/-- Apply a sequence of operations to a memtable. -/
def applyOps (mt : MemTable) (ops : List MemOp) : MemTable :=
  ops.foldl applyOp mt

end MemTable

/-- The hand-computed size contribution of one stored entry:
`len(key) + value.serialized_len() + 16`. -/
def entryContribution (key : List Nat) (v : ValueType) : Nat :=
  key.length + v.serialized_len + ENTRY_METADATA_SIZE

/-- The exact sum, over the current entries, of their size contributions. -/
def specSize (t : List (List Nat × EntryInfo)) : Nat :=
  (t.map fun p => entryContribution p.1 p.2.value).sum

theorem tableGet_replace (t : List (List Nat × EntryInfo)) (key : List Nat)
    (v : ValueType) (s : Nat) (key' : List Nat) :
    tableGet (tableReplace t key v s) key'
      = if key' = key ∧ (tableGet t key).isSome then some ⟨v, s⟩
        else tableGet t key' := by
  induction t with
  | nil =>
    simp [tableReplace, tableGet]
  | cons p rest ih =>
    obtain ⟨k, i⟩ := p
    by_cases hk : k = key
    · subst hk
      simp only [tableReplace, if_pos rfl, tableGet]
      by_cases hk' : k = key'
      · subst hk'
        simp [tableGet]
      · rw [if_neg hk', if_neg hk']
        rw [if_neg (by
          intro hcon
          exact hk' hcon.1.symm)]
    · simp only [tableReplace, if_neg hk, tableGet]
      by_cases hk' : k = key'
      · subst hk'
        rw [if_pos rfl, if_pos rfl]
        rw [if_neg (by
          intro hcon
          exact hk hcon.1)]
      · rw [if_neg hk', if_neg hk', ih]

theorem tableGet_append_single (t : List (List Nat × EntryInfo))
    (k0 : List Nat) (i0 : EntryInfo) (key' : List Nat) :
    tableGet (t ++ [(k0, i0)]) key'
      = match tableGet t key' with
        | some x => some x
        | none => if k0 = key' then some i0 else none := by
  induction t with
  | nil => simp [tableGet]
  | cons p rest ih =>
    obtain ⟨k, i⟩ := p
    by_cases hk : k = key'
    · simp [tableGet, hk]
    · simp only [List.cons_append, tableGet, if_neg hk, List.append_eq, ih]

theorem specSize_append (t : List (List Nat × EntryInfo)) (x : List Nat × EntryInfo) :
    specSize (t ++ [x]) = specSize t + entryContribution x.1 x.2.value := by
  simp [specSize, List.map_append]

theorem specSize_replace (t : List (List Nat × EntryInfo)) (key : List Nat)
    (v : ValueType) (s : Nat) (info : EntryInfo)
    (h : tableGet t key = some info) :
    specSize (tableReplace t key v s) + entryContribution key info.value
      = specSize t + entryContribution key v := by
  induction t with
  | nil => cases h
  | cons p rest ih =>
    obtain ⟨k, i⟩ := p
    by_cases hk : k = key
    · subst hk
      rw [tableGet, if_pos rfl] at h
      cases h
      simp only [tableReplace, reduceIte, specSize, List.map_cons, List.sum_cons]
      omega
    · rw [tableGet, if_neg hk] at h
      simp only [tableReplace, if_neg hk, specSize, List.map_cons, List.sum_cons]
      have := ih h
      unfold specSize at this
      omega

theorem contribution_le_specSize (t : List (List Nat × EntryInfo)) (key : List Nat)
    (info : EntryInfo) (h : tableGet t key = some info) :
    entryContribution key info.value ≤ specSize t := by
  induction t with
  | nil => cases h
  | cons p rest ih =>
    obtain ⟨k, i⟩ := p
    by_cases hk : k = key
    · subst hk
      rw [tableGet, if_pos rfl] at h
      cases h
      simp only [specSize, List.map_cons, List.sum_cons]
      omega
    · rw [tableGet, if_neg hk] at h
      simp only [specSize, List.map_cons, List.sum_cons]
      have := ih h
      unfold specSize at this
      omega

/-- One `update` keeps the size counter exactly equal to the hand-computed
sum, as long as both the old and the new sums are below `2^63` (which makes
the `as i64` casts and the wrapping atomic ops exact — no underflow can
reach the `fetch_sub`). -/
theorem MemTable.update_size_exact (mt : MemTable) (seq : Nat) (key : List Nat)
    (value : ValueType)
    (hinv : mt.size = specSize mt.table)
    (hold : specSize mt.table < I64_BOUND)
    (hnew : specSize (mt.update seq key value).table < I64_BOUND) :
    (mt.update seq key value).size = specSize (mt.update seq key value).table := by
  have hI : I64_BOUND = 2 ^ 63 := rfl
  have hU : U64_MOD = 2 ^ 64 := rfl
  cases hget : tableGet mt.table key with
  | none =>
    simp only [MemTable.update, hget] at hnew ⊢
    rw [specSize_append] at hnew ⊢
    unfold entryContribution at hnew ⊢
    simp only [wrappingAdd, hinv]
    simp only [hU, hI] at *
    omega
  | some info =>
    simp only [MemTable.update, hget] at hnew ⊢
    set old_size := key.length + info.value.serialized_len + ENTRY_METADATA_SIZE
      with hos
    set new_size := key.length + value.serialized_len + ENTRY_METADATA_SIZE
      with hns
    have hrepl := specSize_replace mt.table key value seq info hget
    have holdle : entryContribution key info.value ≤ specSize mt.table :=
      contribution_le_specSize mt.table key info hget
    have hnewle : entryContribution key value
        ≤ specSize (tableReplace mt.table key value seq) := by
      apply contribution_le_specSize _ key ⟨value, seq⟩
      rw [tableGet_replace]
      rw [if_pos ⟨rfl, by rw [hget]; rfl⟩]
    have hoc : entryContribution key info.value = old_size := rfl
    have hnc : entryContribution key value = new_size := rfl
    rw [hoc] at hrepl holdle
    rw [hnc] at hrepl hnewle
    have hosmall : old_size < 2 ^ 63 := by omega
    have hnsmall : new_size < 2 ^ 63 := by omega
    have hio : i64_of_u64 old_size = (old_size : Int) := by
      unfold i64_of_u64
      rw [if_pos (by rw [hU, hI]; rw [Nat.mod_eq_of_lt (by omega)]; omega)]
      rw [hU, Nat.mod_eq_of_lt (by omega)]
    have hin : i64_of_u64 new_size = (new_size : Int) := by
      unfold i64_of_u64
      rw [if_pos (by rw [hU, hI]; rw [Nat.mod_eq_of_lt (by omega)]; omega)]
      rw [hU, Nat.mod_eq_of_lt (by omega)]
    rw [hio, hin]
    by_cases hgt : old_size < new_size
    · rw [if_pos (by omega)]
      have htn : ((new_size : Int) - (old_size : Int)).toNat = new_size - old_size := by
        omega
      rw [htn]
      simp only [wrappingAdd, hinv]
      simp only [hU, hI] at *
      omega
    · by_cases hlt : new_size < old_size
      · rw [if_neg (by omega), if_pos (by omega)]
        have htn : (-((new_size : Int) - (old_size : Int))).toNat
            = old_size - new_size := by omega
        rw [htn]
        simp only [wrappingSub, hinv]
        simp only [hU, hI] at *
        rw [Nat.mod_eq_of_lt (show old_size - new_size < 2 ^ 64 by omega)]
        omega
      · rw [if_neg (by omega), if_neg (by omega)]
        rw [hinv]
        omega

theorem MemTable.applyOp_eq_update (mt : MemTable) (op : MemOp) :
    mt.applyOp op = mt.update op.seq op.key op.value := by
  cases op <;> rfl

theorem MemTable.applyOps_take_succ (ops : List MemOp) (i : Nat) (h : i < ops.length) :
    MemTable.new.applyOps (ops.take (i + 1))
      = (MemTable.new.applyOps (ops.take i)).applyOp (ops.get ⟨i, h⟩) := by
  unfold MemTable.applyOps
  rw [List.take_succ, List.getElem?_eq_getElem h, Option.toList_some,
    List.foldl_append]
  rfl

/-- Size accounting invariant over a whole operation sequence: at every
prefix the atomic counter equals the hand-computed sum, provided every
prefix's exact sum stays below `2^63` (the range where `usize`/`i64`/`u64`
arithmetic in `update` is exact; these bounds hold for any physically
realizable memtable). -/
theorem MemTable.applyOps_size_exact (ops : List MemOp)
    (hb : ∀ i, i ≤ ops.length →
      specSize ((MemTable.new.applyOps (ops.take i)).table) < I64_BOUND) :
    ∀ i, i ≤ ops.length →
      (MemTable.new.applyOps (ops.take i)).size
        = specSize ((MemTable.new.applyOps (ops.take i)).table) := by
  intro i
  induction i with
  | zero =>
    intro _
    simp [MemTable.applyOps, MemTable.new, specSize]
  | succ i ih =>
    intro hle
    have hi : i < ops.length := by omega
    rw [MemTable.applyOps_take_succ ops i hi, MemTable.applyOp_eq_update]
    refine MemTable.update_size_exact _ _ _ _ (ih (by omega)) (hb i (by omega)) ?_
    rw [← MemTable.applyOp_eq_update, ← MemTable.applyOps_take_succ ops i hi]
    exact hb (i + 1) hle

theorem MemTable.get_update (mt : MemTable) (seq : Nat) (key : List Nat)
    (value : ValueType) (key' : List Nat) :
    (mt.update seq key value).get key'
      = if key' = key then some ⟨key', value, seq⟩ else mt.get key' := by
  unfold MemTable.get MemTable.update
  cases hget : tableGet mt.table key with
  | some info =>
    simp only []
    rw [tableGet_replace]
    by_cases hk : key' = key
    · rw [if_pos ⟨hk, by rw [hget]; rfl⟩, if_pos hk]
      subst hk
      rfl
    · rw [if_neg (fun hc => hk hc.1), if_neg hk]
  | none =>
    simp only []
    rw [tableGet_append_single]
    by_cases hk : key' = key
    · subst hk
      rw [hget, if_pos rfl]
      rw [if_pos rfl]
      rfl
    · rw [if_neg hk]
      cases htg : tableGet mt.table key' with
      | some x => rfl
      | none =>
        rw [if_neg (fun hc => hk hc.symm)]

/-- The value/seq written by the last operation addressing `key`, if any. -/
def lastWrite (ops : List MemOp) (key : List Nat) : Option (ValueType × Nat) :=
  ops.foldl (fun acc op => if op.key = key then some (op.value, op.seq) else acc) none

theorem lastWrite_foldl_acc (key : List Nat) :
    ∀ (ops : List MemOp) (a : Option (ValueType × Nat)),
      ops.foldl (fun acc op => if op.key = key then some (op.value, op.seq) else acc) a
        = match lastWrite ops key with
          | some x => some x
          | none => a := by
  intro ops
  induction ops with
  | nil => intro a; rfl
  | cons op ops ih =>
    intro a
    show List.foldl _ (if op.key = key then some (op.value, op.seq) else a) ops = _
    rw [ih]
    show _ = match List.foldl _ (if op.key = key then some (op.value, op.seq) else none) ops with
      | some x => some x
      | none => a
    rw [ih]
    by_cases hk : op.key = key
    · rw [if_pos hk, if_pos hk]
      cases lastWrite ops key <;> rfl
    · rw [if_neg hk, if_neg hk]
      cases lastWrite ops key <;> rfl

/-- `get` after a sequence of operations returns exactly the last write to
that key (or falls back to the initial contents). -/
theorem MemTable.get_applyOps (key : List Nat) :
    ∀ (ops : List MemOp) (mt : MemTable),
      (mt.applyOps ops).get key
        = match lastWrite ops key with
          | some (v, s) => some ⟨key, v, s⟩
          | none => mt.get key := by
  intro ops
  induction ops with
  | nil => intro mt; rfl
  | cons op ops ih =>
    intro mt
    show ((mt.applyOp op).applyOps ops).get key = _
    rw [ih]
    have hlw : lastWrite (op :: ops) key
        = match lastWrite ops key with
          | some x => some x
          | none => if op.key = key then some (op.value, op.seq) else none := by
      show List.foldl _ (if op.key = key then some (op.value, op.seq) else none) ops = _
      rw [lastWrite_foldl_acc]
    rw [hlw]
    cases hl : lastWrite ops key with
    | some x => rfl
    | none =>
      rw [MemTable.applyOp_eq_update, MemTable.get_update]
      by_cases hk : op.key = key
      · rw [if_pos hk, if_pos (by rw [hk])]
      · rw [if_neg hk, if_neg (fun hc => hk hc.symm)]

theorem map_fst_tableReplace (t : List (List Nat × EntryInfo)) (key : List Nat)
    (v : ValueType) (s : Nat) :
    (tableReplace t key v s).map Prod.fst = t.map Prod.fst := by
  induction t with
  | nil => rfl
  | cons p rest ih =>
    obtain ⟨k, i⟩ := p
    by_cases hk : k = key
    · simp [tableReplace, hk]
    · simp [tableReplace, hk, ih]

theorem tableGet_none_not_mem (t : List (List Nat × EntryInfo)) (key : List Nat)
    (h : tableGet t key = none) : key ∉ t.map Prod.fst := by
  induction t with
  | nil => simp
  | cons p rest ih =>
    obtain ⟨k, i⟩ := p
    rw [tableGet] at h
    by_cases hk : k = key
    · rw [if_pos hk] at h
      cases h
    · rw [if_neg hk] at h
      simp only [List.map_cons, List.mem_cons]
      intro hc
      rcases hc with hc | hc
      · exact hk hc.symm
      · exact ih h hc

theorem MemTable.update_keys_nodup (mt : MemTable) (seq : Nat) (key : List Nat)
    (value : ValueType) (h : (mt.table.map Prod.fst).Nodup) :
    ((mt.update seq key value).table.map Prod.fst).Nodup := by
  unfold MemTable.update
  cases hget : tableGet mt.table key with
  | some info =>
    simp only [map_fst_tableReplace]
    exact h
  | none =>
    simp only [List.map_append, List.map_cons, List.map_nil]
    rw [List.nodup_append]
    exact ⟨h, List.nodup_singleton _, by
      intro a ha hb
      simp only [List.mem_singleton] at hb
      rw [hb] at ha
      exact tableGet_none_not_mem mt.table key hget ha⟩

theorem MemTable.applyOps_keys_nodup (ops : List MemOp) :
    ((MemTable.new.applyOps ops).table.map Prod.fst).Nodup := by
  have hgen : ∀ (l : List MemOp) (mt : MemTable), (mt.table.map Prod.fst).Nodup →
      ((mt.applyOps l).table.map Prod.fst).Nodup := by
    intro l
    induction l with
    | nil => intro mt h; exact h
    | cons op l ih =>
      intro mt h
      show (((mt.applyOp op).applyOps l).table.map Prod.fst).Nodup
      refine ih _ ?_
      rw [MemTable.applyOp_eq_update]
      exact MemTable.update_keys_nodup _ _ _ _ h
  exact hgen ops MemTable.new (by simp [MemTable.new])

theorem filter_key_length_le_one (t : List (List Nat × EntryInfo)) (key : List Nat)
    (h : (t.map Prod.fst).Nodup) :
    (t.filter fun p => p.1 == key).length ≤ 1 := by
  induction t with
  | nil => simp
  | cons p rest ih =>
    obtain ⟨k, i⟩ := p
    simp only [List.map_cons, List.nodup_cons] at h
    by_cases hk : k = key
    · subst hk
      rw [List.filter_cons_of_pos (by simp)]
      have hnone : rest.filter (fun p => p.1 == k) = [] := by
        rw [List.filter_eq_nil_iff]
        intro p hp hcon
        apply h.1
        have : p.1 = k := by simpa using hcon
        rw [← this]
        exact List.mem_map_of_mem Prod.fst hp
      rw [hnone]
      simp
    · rw [List.filter_cons_of_neg (by simpa using hk)]
      exact ih h.2

theorem processItems_append_ok (min_seq : Nat) :
    ∀ (es : List Entry) (rest : List (Except ReadError Entry)) (acc : List Entry)
      (m : Nat),
      processItems (es.map .ok ++ rest) min_seq acc m
        = processItems rest min_seq (acc ++ es.filter (fun e => min_seq ≤ e.seq))
            ((es.filter (fun e => min_seq ≤ e.seq)).foldl (fun a e => max a e.seq) m) := by
  intro es
  induction es with
  | nil => simp
  | cons e es ih =>
    intro rest acc m
    simp only [List.map_cons, List.cons_append, processItems, List.append_eq]
    by_cases h : min_seq ≤ e.seq
    · rw [if_pos h, ih, List.filter_cons_of_pos (by simpa using h)]
      simp only [List.foldl_cons, List.append_assoc, List.singleton_append]
    · rw [if_neg h, ih, List.filter_cons_of_neg (by simpa using h)]

/-- The concatenation of the per-file entry lists, in file order. -/
def concatEntries : List (Nat × List Entry) → List Entry
  | [] => []
  | f :: fs => f.2 ++ concatEntries fs

theorem concatEntries_eq_flatten (files : List (Nat × List Entry)) :
    concatEntries files = (files.map Prod.snd).flatten := by
  induction files with
  | nil => rfl
  | cons f fs ih => simp [concatEntries, ih]

/-- Encoding a `(file_id, entries)` directory listing into byte files. -/
def encodeFiles (files : List (Nat × List Entry)) : List (Nat × List Nat) :=
  files.map fun f => (f.1, walEncodeAll f.2)

theorem readFilesAux_encode (min_seq : Nat) :
    ∀ (files : List (Nat × List Entry)) (acc : List Entry) (m : Nat),
      (∀ f ∈ files, ∀ e ∈ f.2, EntryWf e) →
      readFilesAux (encodeFiles files) min_seq acc m
        = .ok (acc ++ (concatEntries files).filter (fun e => min_seq ≤ e.seq),
            ((concatEntries files).filter
              (fun e => min_seq ≤ e.seq)).foldl (fun a e => max a e.seq) m) := by
  intro files
  induction files with
  | nil =>
    intro acc m _
    simp [encodeFiles, readFilesAux, concatEntries]
  | cons f fs ih =>
    intro acc m hwf
    rw [show encodeFiles (f :: fs) = (f.1, walEncodeAll f.2) :: encodeFiles fs from rfl]
    rw [readFilesAux]
    rw [WalIterator.items_encodeAll (fun e he => hwf f (List.mem_cons_self _ _) e he)]
    rw [show (f.2.map (Except.ok (ε := ReadError))) = f.2.map .ok ++ [] by simp]
    rw [processItems_append_ok]
    rw [processItems]
    dsimp only
    rw [ih _ _ (fun g hg e he => hwf g (List.mem_cons_of_mem _ hg) e he)]
    rw [concatEntries]
    rw [List.filter_append, List.foldl_append, List.append_assoc]

theorem processItems_mem (min_seq : Nat) :
    ∀ (l : List (Except ReadError Entry)) (acc : List Entry) (m : Nat)
      (out : List Entry) (m' : Nat),
      processItems l min_seq acc m = .ok (out, m') →
      ∀ e ∈ out, e ∈ acc ∨ min_seq ≤ e.seq := by
  intro l
  induction l with
  | nil =>
    intro acc m out m' h e he
    cases h
    exact Or.inl he
  | cons item rest ih =>
    intro acc m out m' h e he
    match item with
    | .ok entry =>
      rw [processItems] at h
      by_cases hs : min_seq ≤ entry.seq
      · rw [if_pos hs] at h
        rcases ih _ _ _ _ h e he with hmem | hge
        · rcases List.mem_append.1 hmem with hmem | hmem
          · exact Or.inl hmem
          · right
            rw [List.mem_singleton] at hmem
            rw [hmem]
            exact hs
        · exact Or.inr hge
      · rw [if_neg hs] at h
        exact ih _ _ _ _ h e he
    | .error .IoUnexpectedEof =>
      rw [processItems] at h
      cases h
      exact Or.inl he
    | .error (.CrcMismatch a b) => cases h
    | .error (.InvalidRecordType t) => cases h
    | .error (.PayloadTooLarge a b c d) => cases h

theorem readFilesAux_mem (min_seq : Nat) :
    ∀ (fs : List (Nat × List Nat)) (acc : List Entry) (m : Nat)
      (out : List Entry) (m' : Nat),
      readFilesAux fs min_seq acc m = .ok (out, m') →
      ∀ e ∈ out, e ∈ acc ∨ min_seq ≤ e.seq := by
  intro fs
  induction fs with
  | nil =>
    intro acc m out m' h e he
    cases h
    exact Or.inl he
  | cons f rest ih =>
    intro acc m out m' h e he
    obtain ⟨fid, bytes⟩ := f
    rw [readFilesAux] at h
    cases hp : processItems (WalIterator.items bytes) min_seq acc m with
    | error err => rw [hp] at h; cases h
    | ok r =>
      obtain ⟨acc', m₂⟩ := r
      rw [hp] at h
      simp only [] at h
      rcases ih _ _ _ _ h e he with hmem | hge
      · rcases processItems_mem min_seq _ _ _ _ _ hp e hmem with h2 | h2
        · exact Or.inl h2
        · exact Or.inr h2
      · exact Or.inr hge

theorem orderedInsert_encodeFiles (f : Nat × List Entry) :
    ∀ (l : List (Nat × List Entry)),
      List.orderedInsert (fun a b => a.1 ≤ b.1) (f.1, walEncodeAll f.2)
          (encodeFiles l)
        = encodeFiles (List.orderedInsert (fun a b => a.1 ≤ b.1) f l) := by
  intro l
  induction l with
  | nil => rfl
  | cons c l ih =>
    show List.orderedInsert _ _ ((c.1, walEncodeAll c.2) :: encodeFiles l) = _
    rw [List.orderedInsert, List.orderedInsert]
    by_cases h : f.1 ≤ c.1
    · rw [if_pos h, if_pos h]
      rfl
    · rw [if_neg h, if_neg h]
      rw [show encodeFiles (c :: List.orderedInsert (fun a b => a.1 ≤ b.1) f l)
        = (c.1, walEncodeAll c.2)
          :: encodeFiles (List.orderedInsert (fun a b => a.1 ≤ b.1) f l) from rfl]
      rw [ih]

theorem insertionSort_encodeFiles (files : List (Nat × List Entry)) :
    List.insertionSort (fun a b => a.1 ≤ b.1) (encodeFiles files)
      = encodeFiles (List.insertionSort (fun a b => a.1 ≤ b.1) files) := by
  induction files with
  | nil => rfl
  | cons f fs ih =>
    show List.insertionSort _ ((f.1, walEncodeAll f.2) :: encodeFiles fs) = _
    rw [List.insertionSort, ih, List.insertionSort]
    exact orderedInsert_encodeFiles f _

theorem foldl_max_spec (l : List Entry) :
    ∀ (a : Nat),
      a ≤ l.foldl (fun acc e => max acc e.seq) a
      ∧ (∀ e ∈ l, e.seq ≤ l.foldl (fun acc e => max acc e.seq) a)
      ∧ (l.foldl (fun acc e => max acc e.seq) a = a
          ∨ ∃ e ∈ l, e.seq = l.foldl (fun acc e => max acc e.seq) a) := by
  induction l with
  | nil =>
    intro a
    refine ⟨Nat.le_refl a, by simp, Or.inl rfl⟩
  | cons x l ih =>
    intro a
    obtain ⟨h1, h2, h3⟩ := ih (max a x.seq)
    simp only [List.foldl_cons]
    refine ⟨by omega, ?_, ?_⟩
    · intro e he
      rcases List.mem_cons.1 he with he | he
      · subst he
        omega
      · exact h2 e he
    · rcases h3 with h3 | ⟨e, he, hse⟩
      · by_cases hax : a < x.seq
        · right
          exact ⟨x, List.mem_cons_self _ _, by omega⟩
        · left
          omega
      · right
        exact ⟨e, List.mem_cons_of_mem _ he, hse⟩

theorem walEncodeAll_append (xs ys : List Entry) :
    walEncodeAll (xs ++ ys) = walEncodeAll xs ++ walEncodeAll ys := by
  induction xs with
  | nil => rfl
  | cons e xs ih => simp [walEncodeAll, ih]

theorem WalIterator.items_encodeAll_append {es : List Entry}
    (h : ∀ e ∈ es, EntryWf e) (tail : List Nat) :
    items (walEncodeAll es ++ tail) = es.map .ok ++ items tail := by
  induction es with
  | nil => rfl
  | cons e es ih =>
    rw [walEncodeAll, List.append_assoc,
      items_step_entry (read_append (h e (List.mem_cons_self _ _)) _),
      ih (fun x hx => h x (List.mem_cons_of_mem _ hx))]
    rfl

/-- The bytes of one appended record, decomposed into header and payload
parts (the payload-length `u64` addition does not wrap for a well-formed
entry). -/
theorem WalWriter.append_decomp (e : Entry)
    (hpb : 8 + e.key.length + e.val.serialized_len < U64_MOD) :
    WalWriter.append e
      = toBeBytes 4 (crc32 (toBeBytes 8 (8 + e.key.length + (valueSection e.val).length)
          ++ [e.val.type_tag] ++ toBeBytes 8 e.seq ++ toBeBytes 8 e.key.length
          ++ e.key ++ valueSection e.val))
        ++ (toBeBytes 8 (8 + e.key.length + (valueSection e.val).length)
          ++ ([e.val.type_tag] ++ (toBeBytes 8 e.seq ++ (toBeBytes 8 e.key.length
            ++ (e.key ++ valueSection e.val))))) := by
  have hvslen : (valueSection e.val).length = e.val.serialized_len :=
    valueSection_length e.val
  have hplenmod : (WAL_KEY_LEN_SIZE + e.key.length + e.val.serialized_len) % U64_MOD
      = 8 + e.key.length + (valueSection e.val).length := by
    rw [hvslen]
    have h8 : WAL_KEY_LEN_SIZE = 8 := rfl
    rw [h8]
    exact Nat.mod_eq_of_lt hpb
  simp only [WalWriter.append, hplenmod, List.append_assoc]

theorem WalWriter.append_length (e : Entry) :
    (WalWriter.append e).length = 29 + e.key.length + (valueSection e.val).length := by
  simp only [WalWriter.append, List.length_append, toBeBytes_length,
    List.length_cons, List.length_nil, valueSection_length]

theorem WalIterator.items_append_truncated (e : Entry) (hw : EntryWf e) (k : Nat)
    (h1 : 1 ≤ k) (h2 : k < (WalWriter.append e).length) :
    items ((WalWriter.append e).take k) = [.error .IoUnexpectedEof] := by
  rw [WalWriter.append_length] at h2
  have hread : read_next_entry ((WalWriter.append e).take k)
      = (.error .IoUnexpectedEof, []) := by
    rw [WalWriter.append_decomp e (by
      have hMk : WAL_MAX_KEY_SIZE = 1024 * 1024 := rfl
      have hMv : WAL_MAX_VAL_SIZE = 64 * 1024 * 1024 := rfl
      have hU : U64_MOD = 2 ^ 64 := rfl
      have := hw.1
      have := hw.2.1
      omega)]
    exact read_record_truncated _ _ _ _ _ _ _ rfl rfl hw.1
      (by rw [valueSection_length]; exact hw.2.1) h1 (by omega)
  rw [items_step_error hread, items_nil]

namespace WalIterator

set_option maxHeartbeats 1000000 in
/-- Reading a record whose header is consistent (`PayloadLen = 8 + KeyLen +
value-section length`) but whose key exceeds the 1 MiB limit, or whose
value section exceeds the 64 MiB limit: once the key bytes are read the
step stops with `PayloadTooLarge` and never reaches the CRC check. -/
theorem read_record_too_large (crcv plen tag seqv klen : Nat) (key vsec rest : List Nat)
    (hplen : plen = 8 + klen + vsec.length)
    (hkey_len : key.length = klen)
    (hplenlt : plen < 256 ^ 8)
    (hklenlt : klen < 256 ^ 8)
    (hbig : WAL_MAX_KEY_SIZE < klen ∨ WAL_MAX_VAL_SIZE < vsec.length) :
    read_next_entry (toBeBytes 4 crcv ++ (toBeBytes 8 plen ++ ([tag]
        ++ (toBeBytes 8 seqv ++ (toBeBytes 8 klen ++ (key ++ (vsec ++ rest)))))))
      = (.error (.PayloadTooLarge klen vsec.length WAL_MAX_KEY_SIZE WAL_MAX_VAL_SIZE),
         vsec ++ rest) := by
  have hU : U64_MOD = 2 ^ 64 := rfl
  set s := toBeBytes 4 crcv ++ (toBeBytes 8 plen ++ ([tag]
    ++ (toBeBytes 8 seqv ++ (toBeBytes 8 klen ++ (key ++ (vsec ++ rest)))))) with hs
  have hslen : s.length = 21 + (8 + (klen + (vsec.length + rest.length))) := by
    simp only [hs, List.length_append, toBeBytes_length, List.length_cons,
      List.length_nil, hkey_len]
    omega
  have hsplit21 : s = (toBeBytes 4 crcv ++ toBeBytes 8 plen ++ [tag] ++ toBeBytes 8 seqv)
      ++ (toBeBytes 8 klen ++ (key ++ (vsec ++ rest))) := by
    simp only [hs, List.append_assoc]
  have hhdrlen : (toBeBytes 4 crcv ++ toBeBytes 8 plen ++ [tag] ++ toBeBytes 8 seqv).length
      = 21 := by
    simp [toBeBytes_length]
  have htake21 : s.take 21 = toBeBytes 4 crcv ++ toBeBytes 8 plen ++ [tag]
      ++ toBeBytes 8 seqv := by
    rw [hsplit21]
    exact List.take_left' hhdrlen
  have hdrop21 : s.drop 21 = toBeBytes 8 klen ++ (key ++ (vsec ++ rest)) := by
    rw [hsplit21]
    exact List.drop_left' hhdrlen
  have hdrop4 : (s.take 21).drop 4 = toBeBytes 8 plen ++ ([tag] ++ toBeBytes 8 seqv) := by
    rw [htake21]
    have hgrp : toBeBytes 4 crcv ++ toBeBytes 8 plen ++ [tag] ++ toBeBytes 8 seqv
        = toBeBytes 4 crcv ++ (toBeBytes 8 plen ++ ([tag] ++ toBeBytes 8 seqv)) := by
      simp [List.append_assoc]
    rw [hgrp]
    exact List.drop_left' (toBeBytes_length 4 crcv)
  have hplenparse : fromBeBytes (((s.take 21).drop 4).take 8) = plen := by
    rw [hdrop4, List.take_left' (toBeBytes_length 8 plen)]
    exact fromBeBytes_toBeBytes_of_lt hplenlt
  have hklenparse : fromBeBytes ((s.drop 21).take 8) = klen := by
    rw [hdrop21, List.take_left' (toBeBytes_length 8 klen)]
    exact fromBeBytes_toBeBytes_of_lt hklenlt
  have hdrop8 : (s.drop 21).drop 8 = key ++ (vsec ++ rest) := by
    rw [hdrop21]
    exact List.drop_left' (toBeBytes_length 8 klen)
  have hkeyparse : ((s.drop 21).drop 8).take klen = key := by
    rw [hdrop8]
    exact List.take_left' hkey_len
  have hs3 : ((s.drop 21).drop 8).drop klen = vsec ++ rest := by
    rw [hdrop8]
    exact List.drop_left' hkey_len
  have hvlen_eq : (plen + 2 * U64_MOD - 8 - klen) % U64_MOD = vsec.length := by
    rw [hU] at *
    rw [hplen]
    have h1 : 8 + klen + vsec.length + 2 * 2 ^ 64 - 8 - klen
        = vsec.length + 2 * 2 ^ 64 := by omega
    rw [h1]
    have : (256:Nat) ^ 8 = 2 ^ 64 := by norm_num
    omega
  have c0 : ¬ (s.length = 0) := by omega
  have c1 : ¬ (s.length < 21) := by omega
  have c2 : ¬ ((s.drop 21).length < 8) := by
    simp only [List.length_drop]
    omega
  have c3 : ¬ (((s.drop 21).drop 8).length < klen) := by
    simp only [List.length_drop]
    omega
  simp only [read_next_entry, WAL_HEADER_SIZE, WAL_CRC_SIZE, WAL_PAYLOAD_LEN_SIZE,
    WAL_TYPE_SIZE, WAL_SEQ_SIZE, WAL_KEY_LEN_SIZE, Nat.reduceAdd, hplenparse,
    hklenparse, hvlen_eq, hkeyparse, hs3, if_neg c0, if_neg c1, if_neg c2,
    if_neg c3, if_pos hbig]

set_option maxHeartbeats 1000000 in
/-- The `PayloadLen < 8 + KeyLen` underflow path: after the key bytes are
read, the `u64` subtraction `PayloadLen - 8 - KeyLen` wraps modulo `2^64`
and the size guard rejects the record with `PayloadTooLarge` — it never
yields an entry and never reaches the CRC comparison. When the key itself
is within the 1 MiB limit the wrapped value-section length necessarily
exceeds the 64 MiB limit (otherwise the key-length check fires instead). -/
theorem read_record_underflow (crcb : List Nat) (plen tag : Nat) (seqb : List Nat)
    (klen : Nat) (key rest : List Nat)
    (hcrcb : crcb.length = 4)
    (hseqb : seqb.length = 8)
    (hkey_len : key.length = klen)
    (hplenlt : plen < 256 ^ 8)
    (hklenlt : klen < 256 ^ 8)
    (hunder : plen < 8 + klen) :
    read_next_entry (crcb ++ (toBeBytes 8 plen ++ ([tag]
        ++ (seqb ++ (toBeBytes 8 klen ++ (key ++ rest))))))
      = (.error (.PayloadTooLarge klen ((plen + 2 * U64_MOD - 8 - klen) % U64_MOD)
          WAL_MAX_KEY_SIZE WAL_MAX_VAL_SIZE), rest)
    ∧ (klen ≤ WAL_MAX_KEY_SIZE →
        WAL_MAX_VAL_SIZE < (plen + 2 * U64_MOD - 8 - klen) % U64_MOD) := by
  have hU : U64_MOD = 2 ^ 64 := rfl
  have hMk : WAL_MAX_KEY_SIZE = 1024 * 1024 := rfl
  have hMv : WAL_MAX_VAL_SIZE = 64 * 1024 * 1024 := rfl
  have h2568 : (256:Nat) ^ 8 = 2 ^ 64 := by norm_num
  set s := crcb ++ (toBeBytes 8 plen ++ ([tag]
    ++ (seqb ++ (toBeBytes 8 klen ++ (key ++ rest))))) with hs
  have hslen : s.length = 21 + (8 + (klen + rest.length)) := by
    simp only [hs, List.length_append, toBeBytes_length, List.length_cons,
      List.length_nil, hkey_len, hcrcb, hseqb]
    omega
  have hsplit21 : s = (crcb ++ toBeBytes 8 plen ++ [tag] ++ seqb)
      ++ (toBeBytes 8 klen ++ (key ++ rest)) := by
    simp only [hs, List.append_assoc]
  have hhdrlen : (crcb ++ toBeBytes 8 plen ++ [tag] ++ seqb).length = 21 := by
    simp [toBeBytes_length, hcrcb, hseqb]
  have htake21 : s.take 21 = crcb ++ toBeBytes 8 plen ++ [tag] ++ seqb := by
    rw [hsplit21]
    exact List.take_left' hhdrlen
  have hdrop21 : s.drop 21 = toBeBytes 8 klen ++ (key ++ rest) := by
    rw [hsplit21]
    exact List.drop_left' hhdrlen
  have hdrop4 : (s.take 21).drop 4 = toBeBytes 8 plen ++ ([tag] ++ seqb) := by
    rw [htake21]
    have hgrp : crcb ++ toBeBytes 8 plen ++ [tag] ++ seqb
        = crcb ++ (toBeBytes 8 plen ++ ([tag] ++ seqb)) := by
      simp [List.append_assoc]
    rw [hgrp]
    exact List.drop_left' hcrcb
  have hplenparse : fromBeBytes (((s.take 21).drop 4).take 8) = plen := by
    rw [hdrop4, List.take_left' (toBeBytes_length 8 plen)]
    exact fromBeBytes_toBeBytes_of_lt hplenlt
  have hklenparse : fromBeBytes ((s.drop 21).take 8) = klen := by
    rw [hdrop21, List.take_left' (toBeBytes_length 8 klen)]
    exact fromBeBytes_toBeBytes_of_lt hklenlt
  have hdrop8 : (s.drop 21).drop 8 = key ++ rest := by
    rw [hdrop21]
    exact List.drop_left' (toBeBytes_length 8 klen)
  have hkeyparse : ((s.drop 21).drop 8).take klen = key := by
    rw [hdrop8]
    exact List.take_left' hkey_len
  have hs3 : ((s.drop 21).drop 8).drop klen = rest := by
    rw [hdrop8]
    exact List.drop_left' hkey_len
  have hbig : WAL_MAX_KEY_SIZE < klen
      ∨ WAL_MAX_VAL_SIZE < (plen + 2 * U64_MOD - 8 - klen) % U64_MOD := by
    rw [hU, hMk, hMv] at *
    by_cases hksmall : 1024 * 1024 < klen
    · exact Or.inl hksmall
    · right
      have hd : plen + 2 * 2 ^ 64 - 8 - klen
          = 2 ^ 64 + (2 ^ 64 - (8 + klen - plen)) := by omega
      rw [hd]
      rw [Nat.add_mod_left]
      rw [Nat.mod_eq_of_lt (by omega)]
      omega
  have hwrap : (klen ≤ WAL_MAX_KEY_SIZE →
      WAL_MAX_VAL_SIZE < (plen + 2 * U64_MOD - 8 - klen) % U64_MOD) := by
    intro hk
    rcases hbig with hbig | hbig
    · rw [hMk] at *
      omega
    · exact hbig
  refine ⟨?_, hwrap⟩
  have c0 : ¬ (s.length = 0) := by omega
  have c1 : ¬ (s.length < 21) := by omega
  have c2 : ¬ ((s.drop 21).length < 8) := by
    simp only [List.length_drop]
    omega
  have c3 : ¬ (((s.drop 21).drop 8).length < klen) := by
    simp only [List.length_drop]
    omega
  simp only [read_next_entry, WAL_HEADER_SIZE, WAL_CRC_SIZE, WAL_PAYLOAD_LEN_SIZE,
    WAL_TYPE_SIZE, WAL_SEQ_SIZE, WAL_KEY_LEN_SIZE, Nat.reduceAdd, hplenparse,
    hklenparse, hkeyparse, hs3, if_neg c0, if_neg c1, if_neg c2,
    if_neg c3, if_pos hbig]

end WalIterator

/-! ## Claim theorems -/

/-- An entry with a key one byte over the reader's 1 MiB limit: the WAL
round-trip claim fails on it. -/
def c1BigKeyEntry : Entry := Entry.new_tombstone 0 (List.replicate (2 ^ 20 + 1) 0)

/-- C1 (counterexample): the round-trip claim is false for an arbitrary
entry — a tombstone whose key is `2^20 + 1` bytes serializes fine, but the
read step rejects it with `PayloadTooLarge` instead of yielding the entry,
because the reader enforces `KeyLen ≤ 1 MiB`. -/
theorem claim_C1_counterexample :
    WalIterator.read_next_entry (WalWriter.append c1BigKeyEntry)
      ≠ (.ok (some c1BigKeyEntry), [])
    ∧ (WalIterator.read_next_entry (WalWriter.append c1BigKeyEntry)).1
        = .error (.PayloadTooLarge (2 ^ 20 + 1) 0 WAL_MAX_KEY_SIZE WAL_MAX_VAL_SIZE) := by
  have hklen : c1BigKeyEntry.key.length = 2 ^ 20 + 1 := by
    show (List.replicate (2 ^ 20 + 1) 0).length = 2 ^ 20 + 1
    exact List.length_replicate _ _
  have hval : c1BigKeyEntry.val = .Tombstone := rfl
  have hvsec : valueSection c1BigKeyEntry.val = [] := rfl
  have h2568 : (256:Nat) ^ 8 = 2 ^ 64 := by norm_num
  have hdec := WalWriter.append_decomp c1BigKeyEntry (by
    have hU : U64_MOD = 2 ^ 64 := rfl
    rw [hklen, hval]
    simp only [ValueType.serialized_len, ValueType.data_len, ValueType.meta_len]
    omega)
  have h := WalIterator.read_record_too_large
    (crc32 (toBeBytes 8 (8 + c1BigKeyEntry.key.length
        + (valueSection c1BigKeyEntry.val).length)
      ++ [c1BigKeyEntry.val.type_tag] ++ toBeBytes 8 c1BigKeyEntry.seq
      ++ toBeBytes 8 c1BigKeyEntry.key.length ++ c1BigKeyEntry.key
      ++ valueSection c1BigKeyEntry.val))
    (8 + c1BigKeyEntry.key.length + (valueSection c1BigKeyEntry.val).length)
    c1BigKeyEntry.val.type_tag c1BigKeyEntry.seq
    c1BigKeyEntry.key.length c1BigKeyEntry.key (valueSection c1BigKeyEntry.val) []
    rfl rfl
    (by rw [hklen, hvsec]; simp only [List.length_nil]; omega)
    (by rw [hklen]; omega)
    (by
      rw [hklen, hvsec]
      left
      show WAL_MAX_KEY_SIZE < 2 ^ 20 + 1
      have : WAL_MAX_KEY_SIZE = 1024 * 1024 := rfl
      omega)
  rw [List.append_nil] at h
  rw [← hdec] at h
  rw [hvsec] at h
  constructor
  · rw [h]
    intro hcon
    cases hcon
  · rw [h]
    rw [hklen]
    simp

/-- C1 (amended): WAL record round-trip for every entry within the reader's
limits — key at most 1 MiB, value section at most 64 MiB, `seq` and
`expire_at` in `u64` range, payload made of bytes: appending the entry and
then running the iterator's read step on the resulting bytes yields the
entry back (key, value variant with payload, `expire_at`, seq all equal)
with nothing left unconsumed. -/
theorem claim_C1_amended (e : Entry) (hw : EntryWf e) :
    WalIterator.read_next_entry (WalWriter.append e) = (.ok (some e), []) := by
  have h := WalIterator.read_append hw []
  rwa [List.append_nil] at h

/-- Witness for C1 (amended) at concrete entries of all three variants. -/
theorem claim_C1_witness :
    EntryWf (Entry.new_normal 7 [1, 2] [3])
    ∧ EntryWf (Entry.new_tombstone 8 [])
    ∧ EntryWf (Entry.new_expiring 9 [4] [5, 6] 1234567890)
    ∧ WalIterator.read_next_entry (WalWriter.append (Entry.new_normal 7 [1, 2] [3]))
        = (.ok (some (Entry.new_normal 7 [1, 2] [3])), [])
    ∧ WalIterator.read_next_entry (WalWriter.append (Entry.new_tombstone 8 []))
        = (.ok (some (Entry.new_tombstone 8 [])), [])
    ∧ WalIterator.read_next_entry (WalWriter.append
          (Entry.new_expiring 9 [4] [5, 6] 1234567890))
        = (.ok (some (Entry.new_expiring 9 [4] [5, 6] 1234567890)), []) :=
  ⟨by decide, by decide, by decide,
    claim_C1_amended _ (by decide), claim_C1_amended _ (by decide),
    claim_C1_amended _ (by decide)⟩

/-- C7: varint round-trip — for every `u64` value, decoding its encoding
returns the value and consumes `encoded_size(v)` bytes; `encoded_size(v)`
is `max(1, ⌈bit_length(v)/7⌉)` and equals the length of `encode(v)`. -/
theorem claim_C7 (v : Nat) (hv : v < 2 ^ 64) :
    varint.decode (varint.encode v) = .ok (v, varint.encoded_size v)
    ∧ varint.encoded_size v = max 1 ((varint.bit_len v + 6) / 7)
    ∧ varint.encoded_size v = (varint.encode v).length := by
  refine ⟨varint.decode_encode hv, ?_, (varint.length_encode hv).symm⟩
  unfold varint.encoded_size
  by_cases h : varint.bit_len v = 0
  · rw [if_pos h, h]
    decide
  · rw [if_neg h]
    omega

/-- Witness for C7 at `v = u64::MAX` (the 10-byte maximum). -/
theorem claim_C7_witness :
    (2 ^ 64 - 1 : Nat) < 2 ^ 64
    ∧ (varint.decode (varint.encode (2 ^ 64 - 1))
          = .ok (2 ^ 64 - 1, varint.encoded_size (2 ^ 64 - 1))
        ∧ varint.encoded_size (2 ^ 64 - 1) = max 1 ((varint.bit_len (2 ^ 64 - 1) + 6) / 7)
        ∧ varint.encoded_size (2 ^ 64 - 1) = (varint.encode (2 ^ 64 - 1)).length) :=
  ⟨by norm_num, claim_C7 (2 ^ 64 - 1) (by norm_num)⟩

/-- Discriminator for the `Decode` variant of `SSTableError`. -/
def isDecodeError : Except SSTableError (Nat × Nat) → Bool
  | .error (.Decode _) => true
  | _ => false

theorem decodeAux_all_continuation :
    ∀ (bs : List Nat), (∀ b ∈ bs, b &&& 0x80 ≠ 0) →
      ∀ (i shift r : Nat), isDecodeError (varint.decodeAux bs i shift r) = true := by
  intro bs
  induction bs with
  | nil =>
    intro _ i shift r
    rfl
  | cons b rest ih =>
    intro h i shift r
    rw [varint.decodeAux]
    by_cases hs : 64 ≤ shift
    · rw [if_pos hs]
      rfl
    · rw [if_neg hs]
      rw [if_neg (h b (List.mem_cons_self _ _))]
      exact ih (fun x hx => h x (List.mem_cons_of_mem _ hx)) _ _ _

theorem decodeAux_first_continuation :
    ∀ (n : Nat) (bs : List Nat) (i shift r : Nat),
      (∀ b ∈ bs.take n, b &&& 0x80 ≠ 0) → 64 ≤ shift + 7 * n →
      isDecodeError (varint.decodeAux bs i shift r) = true := by
  intro n
  induction n with
  | zero =>
    intro bs i shift r _ hge
    match bs with
    | [] => rfl
    | b :: rest =>
      rw [varint.decodeAux, if_pos (by omega)]
      rfl
  | succ n ih =>
    intro bs i shift r h hge
    match bs with
    | [] => rfl
    | b :: rest =>
      rw [varint.decodeAux]
      by_cases hs : 64 ≤ shift
      · rw [if_pos hs]
        rfl
      · rw [if_neg hs]
        rw [if_neg (h b (by simp [List.take_succ_cons]))]
        exact ih rest _ _ _
          (fun x hx => h x (by
            rw [List.take_succ_cons]
            exact List.mem_cons_of_mem _ hx))
          (by omega)

theorem decodeAux_success_last_clear :
    ∀ (bs : List Nat) (i shift r : Nat), bs ≠ [] →
      (∀ b ∈ bs.dropLast, b &&& 0x80 ≠ 0) →
      (∀ b, bs.getLast? = some b → b &&& 0x80 = 0) →
      shift + 7 * (bs.length - 1) < 64 →
      ∃ v, varint.decodeAux bs i shift r = .ok (v, i + bs.length) := by
  intro bs
  induction bs with
  | nil => intro i shift r hne; cases hne rfl
  | cons b rest ih =>
    intro i shift r _ hcont hlast hshift
    match hrest : rest with
    | [] =>
      rw [varint.decodeAux, if_neg (by simp at hshift; omega)]
      rw [if_pos (hlast b rfl)]
      exact ⟨_, rfl⟩
    | c :: rest' =>
      rw [varint.decodeAux]
      rw [if_neg (by
        simp only [List.length_cons] at hshift
        omega)]
      rw [if_neg (hcont b (by
        rw [List.dropLast_cons_of_ne_nil (by simp)]
        exact List.mem_cons_self _ _))]
      obtain ⟨v, hv⟩ := ih (i + 1) (shift + 7) _ (by simp)
        (fun x hx => hcont x (by
          rw [List.dropLast_cons_of_ne_nil (by simp)]
          exact List.mem_cons_of_mem _ hx))
        (fun x hx => hlast x (by
          rw [List.getLast?_cons_cons]
          exact hx))
        (by
          simp only [List.length_cons] at hshift ⊢
          omega)
      refine ⟨v, ?_⟩
      rw [hv]
      congr 1
      rw [Prod.mk.injEq]
      refine ⟨rfl, ?_⟩
      simp only [List.length_cons]
      omega

/-- C8: varint decode failure and boundary behavior — the empty slice
fails with `Decode`; any input made entirely of continuation bytes fails
with `Decode`; any input whose first 10 bytes all have the continuation bit
set fails with `Decode` (more than 10 bytes would be required); and an
input of exactly 10 bytes whose first 9 bytes have the continuation bit
set and whose 10th byte has its most-significant bit clear decodes
successfully, consuming exactly 10 bytes. -/
theorem claim_C8 :
    isDecodeError (varint.decode []) = true
    ∧ (∀ bs : List Nat, bs ≠ [] → (∀ b ∈ bs, b &&& 0x80 ≠ 0) →
        isDecodeError (varint.decode bs) = true)
    ∧ (∀ bs : List Nat, 10 ≤ bs.length → (∀ b ∈ bs.take 10, b &&& 0x80 ≠ 0) →
        isDecodeError (varint.decode bs) = true)
    ∧ (∀ bs : List Nat, bs.length = 10 → (∀ b ∈ bs.take 9, b &&& 0x80 ≠ 0) →
        (∀ b ∈ bs.drop 9, b &&& 0x80 = 0) →
        ∃ v, varint.decode bs = .ok (v, 10)) := by
  refine ⟨rfl, ?_, ?_, ?_⟩
  · intro bs hne hcont
    unfold varint.decode
    rw [if_neg (by simpa [List.isEmpty_iff] using hne)]
    exact decodeAux_all_continuation bs hcont 0 0 0
  · intro bs hlen hcont
    unfold varint.decode
    rw [if_neg (by
      simp only [List.isEmpty_iff]
      intro hc
      rw [hc] at hlen
      simp at hlen)]
    exact decodeAux_first_continuation 10 bs 0 0 0 hcont (by omega)
  · intro bs hlen hcont hlast
    unfold varint.decode
    rw [if_neg (by
      simp only [List.isEmpty_iff]
      intro hc
      rw [hc] at hlen
      simp at hlen)]
    have hne : bs ≠ [] := by
      intro hc
      rw [hc] at hlen
      simp at hlen
    obtain ⟨v, hv⟩ := decodeAux_success_last_clear bs 0 0 0 hne
      (by
        intro b hb
        apply hcont
        have hdl : bs.dropLast = bs.take 9 := by
          rw [List.dropLast_eq_take, hlen]
        rwa [← hdl])
      (by
        intro b hb
        apply hlast
        rw [List.getLast?_eq_getElem?, hlen] at hb
        have h9 : (bs.drop 9)[0]? = some b := by
          rw [List.getElem?_drop]
          exact hb
        exact List.getElem?_mem h9)
      (by omega)
    exact ⟨v, by rw [hv, hlen]⟩

/-- Witness for C8 at concrete inputs: an all-continuation slice, an
11-byte over-long input, and the exact-10-byte maximum. -/
theorem claim_C8_witness :
    ([0x80, 0x80] : List Nat) ≠ []
    ∧ isDecodeError (varint.decode [0x80, 0x80]) = true
    ∧ 10 ≤ (List.replicate 11 0x80 : List Nat).length
    ∧ isDecodeError (varint.decode (List.replicate 11 0x80)) = true
    ∧ (List.replicate 9 0x80 ++ [1] : List Nat).length = 10
    ∧ ∃ v, varint.decode (List.replicate 9 0x80 ++ [1]) = .ok (v, 10) :=
  ⟨by decide, claim_C8.2.1 _ (by decide) (by decide), by decide,
    claim_C8.2.2.1 _ (by decide) (by decide), by decide,
    claim_C8.2.2.2 _ (by decide) (by decide) (by decide)⟩

/-- C9: footer layout and round-trip — for any pair of `u64` block handles,
the encoded footer is exactly 48 bytes consisting of the two varint-encoded
handles, zero padding, and the big-endian `MAGIC` constant in bytes
`[40..48]`; decoding it returns the original footer; and `validate_magic`
returns `true` iff the decoded footer's magic equals `MAGIC`. -/
theorem claim_C9 (m i : BlockHandle) (hm : m.Wf) (hi : i.Wf) :
    (Footer.encode (Footer.new m i)).length = FOOTER_SIZE
    ∧ Footer.encode (Footer.new m i)
        = m.encode ++ i.encode
          ++ List.replicate
              (FOOTER_SIZE - (m.encoded_size + i.encoded_size + MAGIC_SIZE)) 0
          ++ toBeBytes 8 MAGIC
    ∧ (Footer.encode (Footer.new m i)).drop (FOOTER_SIZE - MAGIC_SIZE)
        = toBeBytes 8 MAGIC
    ∧ Footer.decode (Footer.encode (Footer.new m i)) = .ok (Footer.new m i)
    ∧ (∀ f' : Footer, f'.validate_magic = true ↔ f'.magic = MAGIC) := by
  refine ⟨Footer.footer_length_encode ⟨hm, hi⟩, ?_, Footer.encode_drop_40 ⟨hm, hi⟩,
    Footer.footer_decode_encode ⟨hm, hi⟩, ?_⟩
  · simp only [Footer.encode, Footer.new, List.append_assoc]
  · intro f'
    unfold Footer.validate_magic
    exact beq_iff_eq

/-- Witness for C9 at the spec's scenario F handles `(100,200)`/`(300,400)`. -/
theorem claim_C9_witness :
    (BlockHandle.new 100 200).Wf
    ∧ (BlockHandle.new 300 400).Wf
    ∧ ((Footer.encode (Footer.new (BlockHandle.new 100 200)
          (BlockHandle.new 300 400))).length = FOOTER_SIZE
      ∧ Footer.encode (Footer.new (BlockHandle.new 100 200) (BlockHandle.new 300 400))
          = (BlockHandle.new 100 200).encode ++ (BlockHandle.new 300 400).encode
            ++ List.replicate (FOOTER_SIZE - ((BlockHandle.new 100 200).encoded_size
                + (BlockHandle.new 300 400).encoded_size + MAGIC_SIZE)) 0
            ++ toBeBytes 8 MAGIC
      ∧ (Footer.encode (Footer.new (BlockHandle.new 100 200)
            (BlockHandle.new 300 400))).drop (FOOTER_SIZE - MAGIC_SIZE)
          = toBeBytes 8 MAGIC
      ∧ Footer.decode (Footer.encode (Footer.new (BlockHandle.new 100 200)
            (BlockHandle.new 300 400)))
          = .ok (Footer.new (BlockHandle.new 100 200) (BlockHandle.new 300 400))
      ∧ (∀ f' : Footer, f'.validate_magic = true ↔ f'.magic = MAGIC)) :=
  ⟨by decide, by decide, claim_C9 _ _ (by decide) (by decide)⟩

/-- C10: for any WAL record byte stream whose header declares
`PayloadLen < 8 + KeyLen`, once the key bytes are read the iterator
returns `PayloadTooLarge` — it never yields an entry and never reaches
the CRC check (the step ends before the CRC comparison); the error's
value length is the wrapped (mod `2^64`) subtraction, and whenever the key
itself is within the 1 MiB limit that wrapped length necessarily exceeds
the 64 MiB value limit. -/
theorem claim_C10 (crcb : List Nat) (plen tag : Nat) (seqb : List Nat)
    (klen : Nat) (key rest : List Nat)
    (hcrcb : crcb.length = 4)
    (hseqb : seqb.length = 8)
    (hkey_len : key.length = klen)
    (hplenlt : plen < 256 ^ 8)
    (hklenlt : klen < 256 ^ 8)
    (hunder : plen < 8 + klen) :
    WalIterator.read_next_entry (crcb ++ (toBeBytes 8 plen ++ ([tag]
        ++ (seqb ++ (toBeBytes 8 klen ++ (key ++ rest))))))
      = (.error (.PayloadTooLarge klen ((plen + 2 * U64_MOD - 8 - klen) % U64_MOD)
          WAL_MAX_KEY_SIZE WAL_MAX_VAL_SIZE), rest)
    ∧ (klen ≤ WAL_MAX_KEY_SIZE →
        WAL_MAX_VAL_SIZE < (plen + 2 * U64_MOD - 8 - klen) % U64_MOD) :=
  WalIterator.read_record_underflow crcb plen tag seqb klen key rest
    hcrcb hseqb hkey_len hplenlt hklenlt hunder

/-- Witness for C10: a header declaring `PayloadLen = 0` with a 1-byte key. -/
theorem claim_C10_witness :
    ([0, 0, 0, 0] : List Nat).length = 4
    ∧ ([9, 9, 9, 9, 9, 9, 9, 9] : List Nat).length = 8
    ∧ ([42] : List Nat).length = 1
    ∧ (0 : Nat) < 256 ^ 8
    ∧ (1 : Nat) < 256 ^ 8
    ∧ (0 : Nat) < 8 + 1
    ∧ (WalIterator.read_next_entry ([0, 0, 0, 0] ++ (toBeBytes 8 0 ++ ([0]
          ++ ([9, 9, 9, 9, 9, 9, 9, 9] ++ (toBeBytes 8 1 ++ ([42] ++ []))))))
        = (.error (.PayloadTooLarge 1 ((0 + 2 * U64_MOD - 8 - 1) % U64_MOD)
            WAL_MAX_KEY_SIZE WAL_MAX_VAL_SIZE), [])
      ∧ (1 ≤ WAL_MAX_KEY_SIZE →
          WAL_MAX_VAL_SIZE < (0 + 2 * U64_MOD - 8 - 1) % U64_MOD)) :=
  ⟨rfl, rfl, rfl, by norm_num, by norm_num, by norm_num,
    claim_C10 [0, 0, 0, 0] 0 0 [9, 9, 9, 9, 9, 9, 9, 9] 1 [42] []
      rfl rfl rfl (by norm_num) (by norm_num) (by norm_num)⟩

/-- C4 counterexample: with flushed floor `min_seq = 5`, a single WAL file
holding one tombstone with `seq = 5` is replayed by `read_all_entries`
(the code keeps `entry.seq >= min_seq`), contradicting the claim that only
entries with seq strictly greater than the floor are replayed. -/
theorem claim_C4_counterexample :
    Wal.read_all_entries (encodeFiles [(1, [Entry.new_tombstone 5 [107]])]) 5
      = .ok ([Entry.new_tombstone 5 [107]], 5)
    ∧ ¬ (5 : Nat) < (Entry.new_tombstone 5 [107]).seq := by
  constructor
  · decide
  · decide

/-- C4 amended: every entry returned by `read_all_entries` with floor
`min_seq` has `min_seq ≤ seq` (the code keeps entries at or above the
floor, not strictly above it). -/
theorem claim_C4_amended (files : List (Nat × List Nat)) (min_seq : Nat)
    (out : List Entry) (m : Nat)
    (h : Wal.read_all_entries files min_seq = .ok (out, m)) :
    ∀ e ∈ out, min_seq ≤ e.seq := by
  intro e he
  unfold Wal.read_all_entries at h
  simp only [] at h
  cases hr : readFilesAux (List.insertionSort (fun a b => a.1 ≤ b.1) files)
      min_seq [] 0 with
  | error err =>
    rw [hr] at h
    cases h
  | ok p =>
    obtain ⟨all, mx⟩ := p
    rw [hr] at h
    simp only [Except.ok.injEq, Prod.mk.injEq] at h
    obtain ⟨hout, _⟩ := h
    rw [← hout] at he
    have hmem : e ∈ all := (List.perm_insertionSort _ all).mem_iff.mp he
    rcases readFilesAux_mem min_seq _ [] 0 all mx hr e hmem with h0 | h1
    · cases h0
    · exact h1

/-- Witness for C4's amended theorem: floor 3 with a seq-7 put. -/
theorem claim_C4_witness :
    Wal.read_all_entries (encodeFiles [(2, [Entry.new_normal 7 [97] [1, 2]])]) 3
      = .ok ([Entry.new_normal 7 [97] [1, 2]], 7)
    ∧ ∀ e ∈ [Entry.new_normal 7 [97] [1, 2]], 3 ≤ e.seq :=
  ⟨by decide,
    claim_C4_amended (encodeFiles [(2, [Entry.new_normal 7 [97] [1, 2]])]) 3
      [Entry.new_normal 7 [97] [1, 2]] 7 (by decide)⟩

/-- C5: starting from a fresh memtable, after any prefix-bounded sequence of
put/delete/put_expiring operations, `size()` equals the sum over currently
stored keys of `len(key) + serialized_len + 16`, and in particular (read as
an `i64`) it is never negative. The bound hypothesis says the true
footprint stays below `2^63` at every step, which makes the code's `i64`
casts and wrapping atomic adjustments exact. -/
theorem claim_C5 (ops : List MemOp)
    (hb : ∀ i, i ≤ ops.length →
      specSize ((MemTable.new.applyOps (ops.take i)).table) < I64_BOUND) :
    (MemTable.new.applyOps ops).size
      = specSize ((MemTable.new.applyOps ops).table)
    ∧ (MemTable.new.applyOps ops).size < I64_BOUND := by
  have h := MemTable.applyOps_size_exact ops hb ops.length (Nat.le_refl _)
  rw [List.take_length] at h
  refine ⟨h, ?_⟩
  rw [h]
  have := hb ops.length (Nat.le_refl _)
  rwa [List.take_length] at this

/-- Witness for C5: put, overwrite, delete, and an expiring put. -/
theorem claim_C5_witness :
    (∀ i, i ≤ ([MemOp.put 1 [97] [1, 2, 3], MemOp.put 2 [97] [9], MemOp.del 3 [98],
        MemOp.putExpiring 4 [99] [5] 1000] : List MemOp).length →
      specSize ((MemTable.new.applyOps (([MemOp.put 1 [97] [1, 2, 3],
          MemOp.put 2 [97] [9], MemOp.del 3 [98],
          MemOp.putExpiring 4 [99] [5] 1000] : List MemOp).take i)).table) < I64_BOUND)
    ∧ ((MemTable.new.applyOps [MemOp.put 1 [97] [1, 2, 3], MemOp.put 2 [97] [9],
          MemOp.del 3 [98], MemOp.putExpiring 4 [99] [5] 1000]).size
        = specSize ((MemTable.new.applyOps [MemOp.put 1 [97] [1, 2, 3],
            MemOp.put 2 [97] [9], MemOp.del 3 [98],
            MemOp.putExpiring 4 [99] [5] 1000]).table)
      ∧ (MemTable.new.applyOps [MemOp.put 1 [97] [1, 2, 3], MemOp.put 2 [97] [9],
          MemOp.del 3 [98], MemOp.putExpiring 4 [99] [5] 1000]).size < I64_BOUND) :=
  ⟨by decide, claim_C5 _ (by decide)⟩

/-- C6 counterexample: put seq 5 then put seq 3 on the same key — the
memtable unconditionally overwrites, so `get` returns the entry with
seq 3, not the maximum seq 5. -/
theorem claim_C6_counterexample :
    (MemTable.new.applyOps [MemOp.put 5 [107] [1], MemOp.put 3 [107] [2]]).get [107]
      = some ⟨[107], .Normal [2], 3⟩
    ∧ ¬ ((3 : Nat) = max 5 3) := by
  constructor
  · decide
  · decide

/-- C6 amended: the memtable stores at most one entry per key, and `get`
returns the entry written by the chronologically LAST operation on that
key (last-write-wins), regardless of sequence numbers. -/
theorem claim_C6_amended (ops : List MemOp) (key : List Nat) :
    ((MemTable.new.applyOps ops).table.filter fun p => p.1 == key).length ≤ 1
    ∧ (MemTable.new.applyOps ops).get key
        = match lastWrite ops key with
          | some (v, s) => some ⟨key, v, s⟩
          | none => none := by
  constructor
  · exact filter_key_length_le_one _ key (MemTable.applyOps_keys_nodup ops)
  · rw [MemTable.get_applyOps]
    cases lastWrite ops key with
    | none => rfl
    | some x => rfl

/-- C2: truncating a WAL of `N` well-formed records anywhere from the end of
record `N−1` (inclusive) up to but excluding the end of record `N` makes the
iterator yield exactly the first `N−1` records — followed by a single
unexpected-EOF I/O error when the cut falls strictly inside record `N`
(at the exact boundary the reader sees a clean EOF and yields no error) —
and the recovery driver treats that error as a torn tail, succeeding with
those `N−1` entries. -/
theorem claim_C2 (front : List Entry) (last : Entry)
    (hwf : ∀ e ∈ front ++ [last], EntryWf e)
    (cut fid : Nat)
    (hlo : (walEncodeAll front).length ≤ cut)
    (hhi : cut < (walEncodeAll (front ++ [last])).length) :
    WalIterator.items ((walEncodeAll (front ++ [last])).take cut)
      = front.map .ok
        ++ (if cut = (walEncodeAll front).length then []
            else [.error .IoUnexpectedEof])
    ∧ ∃ m, Wal.read_all_entries [(fid, (walEncodeAll (front ++ [last])).take cut)] 0
        = .ok (List.insertionSort (fun a b => a.seq ≤ b.seq) front, m) := by
  have hwfront : ∀ e ∈ front, EntryWf e := fun e he => hwf e (List.mem_append_left _ he)
  have hwlast : EntryWf last :=
    hwf last (List.mem_append_right _ (List.mem_singleton.mpr rfl))
  have henc : walEncodeAll (front ++ [last])
      = walEncodeAll front ++ WalWriter.append last := by
    rw [walEncodeAll_append]
    simp [walEncodeAll]
  rw [henc, List.length_append] at hhi
  have htake : (walEncodeAll (front ++ [last])).take cut
      = walEncodeAll front
        ++ (WalWriter.append last).take (cut - (walEncodeAll front).length) := by
    rw [henc, List.take_append_eq_append_take, List.take_of_length_le hlo]
  have hitems : WalIterator.items ((walEncodeAll (front ++ [last])).take cut)
      = front.map .ok
        ++ (if cut = (walEncodeAll front).length then []
            else [.error .IoUnexpectedEof]) := by
    rw [htake]
    by_cases hcut : cut = (walEncodeAll front).length
    · rw [if_pos hcut, hcut, Nat.sub_self, List.take_zero, List.append_nil,
        List.append_nil]
      exact WalIterator.items_encodeAll hwfront
    · rw [if_neg hcut, WalIterator.items_encodeAll_append hwfront,
        WalIterator.items_append_truncated last hwlast _ (by omega) (by omega)]
  refine ⟨hitems, ?_⟩
  have hfilter : front.filter (fun e => (0 : Nat) ≤ e.seq) = front :=
    List.filter_eq_self.mpr (fun a _ => by simp)
  refine ⟨front.foldl (fun a e => max a e.seq) 0, ?_⟩
  have hrfa : readFilesAux [(fid, (walEncodeAll (front ++ [last])).take cut)] 0 [] 0
      = .ok (front, front.foldl (fun a e => max a e.seq) 0) := by
    simp only [readFilesAux]
    rw [hitems, processItems_append_ok 0 front _ [] 0, hfilter, List.nil_append]
    by_cases hcut : cut = (walEncodeAll front).length
    · rw [if_pos hcut]
      rfl
    · rw [if_neg hcut]
      rfl
  rw [show Wal.read_all_entries [(fid, (walEncodeAll (front ++ [last])).take cut)] 0
      = (match readFilesAux [(fid, (walEncodeAll (front ++ [last])).take cut)] 0 [] 0 with
        | .error e => .error e
        | .ok (all, mx) =>
          .ok (List.insertionSort (fun a b => a.seq ≤ b.seq) all, mx)) from rfl,
    hrfa]

/-- Witness for C2: one intact tombstone record followed by a put record cut
mid-payload at byte 45. -/
theorem claim_C2_witness :
    (∀ e ∈ [Entry.new_tombstone 1 [97]] ++ [Entry.new_normal 2 [98] [7]], EntryWf e)
    ∧ (walEncodeAll [Entry.new_tombstone 1 [97]]).length ≤ 45
    ∧ 45 < (walEncodeAll
        ([Entry.new_tombstone 1 [97]] ++ [Entry.new_normal 2 [98] [7]])).length
    ∧ (WalIterator.items ((walEncodeAll
          ([Entry.new_tombstone 1 [97]] ++ [Entry.new_normal 2 [98] [7]])).take 45)
        = [Entry.new_tombstone 1 [97]].map .ok
          ++ (if (45 : Nat) = (walEncodeAll [Entry.new_tombstone 1 [97]]).length
              then [] else [.error .IoUnexpectedEof])
      ∧ ∃ m, Wal.read_all_entries [(7, (walEncodeAll
            ([Entry.new_tombstone 1 [97]] ++ [Entry.new_normal 2 [98] [7]])).take 45)] 0
          = .ok (List.insertionSort (fun a b => a.seq ≤ b.seq)
              [Entry.new_tombstone 1 [97]], m)) :=
  ⟨by decide, by decide, by decide,
    claim_C2 [Entry.new_tombstone 1 [97]] (Entry.new_normal 2 [98] [7]) (by decide)
      45 7 (by decide) (by decide)⟩

instance instIsTotalEntrySeq : IsTotal Entry (fun a b => a.seq ≤ b.seq) :=
  ⟨fun a b => Nat.le_total a.seq b.seq⟩

instance instIsTransEntrySeq : IsTrans Entry (fun a b => a.seq ≤ b.seq) :=
  ⟨fun _ _ _ hab hbc => Nat.le_trans hab hbc⟩

/-- C3: recovery over a directory of well-formed WAL files returns exactly
the entries with `seq ≥ min_seq` (as a permutation of the filtered
concatenation of the files' records), sorted ascending by seq, with
`max_seq` an upper bound on every kept seq and either 0 or attained by a
kept entry. -/
theorem claim_C3 (files : List (Nat × List Entry)) (min_seq : Nat)
    (hwf : ∀ f ∈ files, ∀ e ∈ f.2, EntryWf e) :
    ∃ out m,
      Wal.read_all_entries (encodeFiles files) min_seq = .ok (out, m)
      ∧ out.Perm ((concatEntries files).filter (fun e => min_seq ≤ e.seq))
      ∧ List.Sorted (fun a b : Entry => a.seq ≤ b.seq) out
      ∧ (∀ e ∈ out, e.seq ≤ m)
      ∧ (m = 0 ∨ ∃ e ∈ out, e.seq = m) := by
  set sfiles := List.insertionSort (fun a b : (Nat × List Entry) => a.1 ≤ b.1) files
    with hsf
  have hwf' : ∀ f ∈ sfiles, ∀ e ∈ f.2, EntryWf e := by
    intro f hf
    exact hwf f ((List.perm_insertionSort _ files).mem_iff.mp hf)
  set kept := (concatEntries sfiles).filter (fun e => min_seq ≤ e.seq) with hkept
  set m := kept.foldl (fun a e => max a e.seq) 0 with hm
  refine ⟨List.insertionSort (fun a b : Entry => a.seq ≤ b.seq) kept, m,
    ?_, ?_, ?_, ?_, ?_⟩
  · rw [show Wal.read_all_entries (encodeFiles files) min_seq
        = (match readFilesAux
            (List.insertionSort (fun a b => a.1 ≤ b.1) (encodeFiles files))
            min_seq [] 0 with
          | .error e => .error e
          | .ok (all, mx) =>
            .ok (List.insertionSort (fun a b => a.seq ≤ b.seq) all, mx)) from rfl,
      insertionSort_encodeFiles, ← hsf,
      readFilesAux_encode min_seq sfiles [] 0 hwf', List.nil_append, ← hkept, ← hm]
  · refine (List.perm_insertionSort _ kept).trans ?_
    rw [hkept]
    refine List.Perm.filter _ ?_
    rw [concatEntries_eq_flatten, concatEntries_eq_flatten]
    exact (List.Perm.map Prod.snd (List.perm_insertionSort _ files)).flatten
  · exact List.sorted_insertionSort _ kept
  · intro e he
    exact (foldl_max_spec kept 0).2.1 e ((List.perm_insertionSort _ kept).mem_iff.mp he)
  · rcases (foldl_max_spec kept 0).2.2 with h0 | ⟨e, he, hes⟩
    · exact Or.inl h0
    · exact Or.inr ⟨e, (List.perm_insertionSort _ kept).mem_iff.mpr he, hes⟩

/-- Witness for C3: two files, floor 3 — only the seq-4 put survives. -/
theorem claim_C3_witness :
    (∀ f ∈ [((1 : Nat), [Entry.new_normal 4 [97] [1]]),
        (2, [Entry.new_tombstone 2 [98]])], ∀ e ∈ f.2, EntryWf e)
    ∧ ∃ out m,
        Wal.read_all_entries (encodeFiles [(1, [Entry.new_normal 4 [97] [1]]),
          (2, [Entry.new_tombstone 2 [98]])]) 3 = .ok (out, m)
        ∧ out.Perm ((concatEntries [(1, [Entry.new_normal 4 [97] [1]]),
            (2, [Entry.new_tombstone 2 [98]])]).filter (fun e => 3 ≤ e.seq))
        ∧ List.Sorted (fun a b : Entry => a.seq ≤ b.seq) out
        ∧ (∀ e ∈ out, e.seq ≤ m)
        ∧ (m = 0 ∨ ∃ e ∈ out, e.seq = m) :=
  ⟨by decide,
    claim_C3 [(1, [Entry.new_normal 4 [97] [1]]), (2, [Entry.new_tombstone 2 [98]])]
      3 (by decide)⟩
